import Mathlib

/-!
Shallow embedding of the chunking / Merkle-tree / proof-validation core of the
wasm-token-dapp repository (src/merkle.rs and src/transaction.rs), together
with theorems settling the frozen claims about it.

Bytes are modelled as natural numbers (reduced mod 256 where the code relies
on the u8 width), byte buffers as lists, and Rust Result values together with
panics as a three-valued outcome type.
-/

namespace Dapp

/-- Word modulus for 32-bit arithmetic. -/
def M32 : Nat := 4294967296

/-- Right rotation of a 32-bit word. -/
def rotr (n x : Nat) : Nat := (x >>> n) ||| ((x <<< (32 - n)) % M32)

/-- SHA-256 Ch function. -/
def ch32 (x y z : Nat) : Nat := (x &&& y) ^^^ ((x ^^^ 4294967295) &&& z)

/-- SHA-256 Maj function. -/
def maj32 (x y z : Nat) : Nat := (x &&& y) ^^^ (x &&& z) ^^^ (y &&& z)

/-- SHA-256 big sigma 0. -/
def bsig0 (x : Nat) : Nat := rotr 2 x ^^^ rotr 13 x ^^^ rotr 22 x

/-- SHA-256 big sigma 1. -/
def bsig1 (x : Nat) : Nat := rotr 6 x ^^^ rotr 11 x ^^^ rotr 25 x

/-- SHA-256 small sigma 0. -/
def ssig0 (x : Nat) : Nat := rotr 7 x ^^^ rotr 18 x ^^^ (x >>> 3)

/-- SHA-256 small sigma 1. -/
def ssig1 (x : Nat) : Nat := rotr 17 x ^^^ rotr 19 x ^^^ (x >>> 10)

/-- SHA-256 round constants. -/
def K256 : List Nat :=
  [1116352408, 1899447441, 3049323471, 3921009573, 961987163,
   1508970993, 2453635748, 2870763221, 3624381080, 310598401,
   607225278, 1426881987, 1925078388, 2162078206, 2614888103,
   3248222580, 3835390401, 4022224774, 264347078, 604807628,
   770255983, 1249150122, 1555081692, 1996064986, 2554220882,
   2821834349, 2952996808, 3210313671, 3336571891, 3584528711,
   113926993, 338241895, 666307205, 773529912, 1294757372,
   1396182291, 1695183700, 1986661051, 2177026350, 2456956037,
   2730485921, 2820302411, 3259730800, 3345764771, 3516065817,
   3600352804, 4094571909, 275423344, 430227734, 506948616,
   659060556, 883997877, 958139571, 1322822218, 1537002063,
   1747873779, 1955562222, 2024104815, 2227730452, 2361852424,
   2428436474, 2756734187, 3204031479, 3329325298]

/-- SHA-256 initial hash state. -/
def H256 : List Nat :=
  [1779033703, 3144134277, 1013904242, 2773480762, 1359893119,
   2600822924, 528734635, 1541459225]

/-- Big-endian 4-byte encoding of a 32-bit word. -/
def be32 (x : Nat) : List Nat :=
  [(x / 16777216) % 256, (x / 65536) % 256, (x / 256) % 256, x % 256]

/-- Big-endian 8-byte encoding of a 64-bit word. -/
def be64 (x : Nat) : List Nat :=
  [(x / 72057594037927936) % 256, (x / 281474976710656) % 256, (x / 1099511627776) % 256,
   (x / 4294967296) % 256, (x / 16777216) % 256, (x / 65536) % 256, (x / 256) % 256, x % 256]

/-- Big-endian decoding of 4 bytes into a 32-bit word. -/
def beVal4 (l : List Nat) : Nat :=
  (l.getD 0 0 % 256) * 16777216 + (l.getD 1 0 % 256) * 65536 + (l.getD 2 0 % 256) * 256
    + l.getD 3 0 % 256

/-- Groups a byte list into big-endian 32-bit words. -/
def bytesToWords : List Nat → List Nat
  | a :: b :: c :: d :: rest =>
      ((a % 256) * 16777216 + (b % 256) * 65536 + (c % 256) * 256 + d % 256) :: bytesToWords rest
  | _ => []

/-- SHA-256 message padding: append 0x80, zeros, and the 64-bit bit length. -/
def sha256Pad (msg : List Nat) : List Nat :=
  msg ++ 128 :: List.replicate ((119 - msg.length % 64) % 64) 0 ++ be64 (8 * msg.length % 18446744073709551616)

/-- Extends a partial message schedule by one word. -/
def schedExt (ws : List Nat) : Nat :=
  (ssig1 (ws.getD (ws.length - 2) 0) + ws.getD (ws.length - 7) 0
    + ssig0 (ws.getD (ws.length - 15) 0) + ws.getD (ws.length - 16) 0) % M32

/-- Full 64-word SHA-256 message schedule of a 64-byte block. -/
def schedule (block : List Nat) : List Nat :=
  (List.range 48).foldl (fun ws _ => ws ++ [schedExt ws]) (bytesToWords block)

/-- One SHA-256 compression round on the 8-word working state. -/
def sha256Round (st : Nat × Nat × Nat × Nat × Nat × Nat × Nat × Nat) (wk : Nat × Nat) :
    Nat × Nat × Nat × Nat × Nat × Nat × Nat × Nat :=
  let (a, b, c, d, e, f, g, h) := st
  let t1 := (h + bsig1 e + ch32 e f g + wk.2 + wk.1) % M32
  let t2 := (bsig0 a + maj32 a b c) % M32
  ((t1 + t2) % M32, a, b, c, (d + t1) % M32, e, f, g)

/-- SHA-256 compression of one 64-byte block into the 8-word chaining state. -/
def compress (hs : List Nat) (block : List Nat) : List Nat :=
  let w := schedule block
  let st := (w.zip K256).foldl sha256Round
    (hs.getD 0 0, hs.getD 1 0, hs.getD 2 0, hs.getD 3 0,
     hs.getD 4 0, hs.getD 5 0, hs.getD 6 0, hs.getD 7 0)
  [(hs.getD 0 0 + st.1) % M32, (hs.getD 1 0 + st.2.1) % M32, (hs.getD 2 0 + st.2.2.1) % M32,
   (hs.getD 3 0 + st.2.2.2.1) % M32, (hs.getD 4 0 + st.2.2.2.2.1) % M32,
   (hs.getD 5 0 + st.2.2.2.2.2.1) % M32, (hs.getD 6 0 + st.2.2.2.2.2.2.1) % M32,
   (hs.getD 7 0 + st.2.2.2.2.2.2.2) % M32]

/-- Fuelled worker for splitting a list into size-n groups. -/
def chunksGo (n : Nat) : Nat → List Nat → List (List Nat)
  | _, [] => []
  | 0, _ => []
  | fuel + 1, l => if n = 0 then [] else l.take n :: chunksGo n fuel (l.drop n)

/-- Rust slice chunks semantics: the empty slice yields no chunks, otherwise
groups of n with a possibly shorter last group. -/
def chunksOf (n : Nat) (l : List Nat) : List (List Nat) := chunksGo n l.length l

/-- SHA-256 digest of a byte list, as 32 bytes. Embeds hash_sha256 of
src/merkle.rs (the reused rustcrypto context with finalize_reset hashes each
message independently). -/
def sha256 (msg : List Nat) : List Nat :=
  (((chunksOf 64 (sha256Pad msg)).foldl compress H256).map be32).flatten

/-- Embeds hash_all_sha256 of src/merkle.rs: SHA-256 of the concatenation of
the SHA-256 digests of the messages. -/
def hashAllSha256 (messages : List (List Nat)) : List Nat :=
  sha256 ((messages.map sha256).flatten)

/-- Modelled from the spec: the error enum lives outside src/; §7 of the spec
names a proof-integrity error kind (deserialization failure or hash mismatch,
surfaced immediately) and the code refers to it as Error::InvalidProof, and an
encoding error kind for invalid tag content (Error::InvalidTags). -/
inductive Error where
  | InvalidProof : Error
  | InvalidTags : Error
deriving Repr, DecidableEq

/-- Outcome of a Rust function returning Result, with a third value modelling
a panic (unwrap on None or Err, unreachable, index underflow or out of
bounds). -/
inductive PResult (α : Type) where
  | ok : α → PResult α
  | err : Error → PResult α
  | panic : PResult α
deriving Repr, DecidableEq

/-- Embeds the constant MAX_CHUNK_SIZE = 256 * 1024 of src/merkle.rs. -/
def MAX_CHUNK_SIZE : Nat := 256 * 1024

/-- Embeds the constant MIN_CHUNK_SIZE = 32 * 1024 of src/merkle.rs. -/
def MIN_CHUNK_SIZE : Nat := 32 * 1024

/-- Embeds the constant HASH_SIZE = 32 of src/merkle.rs. -/
def HASH_SIZE : Nat := 32

/-- Embeds the constant NOTE_SIZE = 32 of src/merkle.rs. -/
def NOTE_SIZE : Nat := 32

/-- Embeds to_note_vec of src/merkle.rs: 28 zero bytes followed by the
big-endian bytes of the value cast to u32. -/
def toNoteVec (x : Nat) : List Nat :=
  List.replicate (NOTE_SIZE - 4) 0 ++ be32 (x % M32)

/-- Embeds the Node struct of src/merkle.rs, used both for leaves and for
branch nodes; children are boxed options in the source. -/
structure Node where
  id : List Nat
  data_hash : Option (List Nat)
  min_byte_range : Nat
  max_byte_range : Nat
  left_child : Option Node
  right_child : Option Node

/-- Embeds the Proof struct of src/merkle.rs: an offset plus the serialized
proof byte buffer. -/
structure Proof where
  offset : Nat
  proof : List Nat
deriving Repr, DecidableEq

/-- Embeds the BranchProof struct of src/merkle.rs after borsh
deserialization: left_id[32], right_id[32], notepad[24], offset[8]. -/
structure BranchProof where
  left_id : List Nat
  right_id : List Nat
  notepad : List Nat
  offset8 : List Nat
deriving Repr, DecidableEq

/-- Embeds the LeafProof struct of src/merkle.rs after borsh deserialization:
data_hash[32], notepad[24], offset[8]. -/
structure LeafProof where
  data_hash : List Nat
  notepad : List Nat
  offset8 : List Nat
deriving Repr, DecidableEq

/-- Embeds BranchProof::offset of src/merkle.rs: big-endian u32 from the last
4 of the 8 offset bytes. -/
def BranchProof.offsetVal (bp : BranchProof) : Nat := beVal4 (bp.offset8.drop 4)

/-- Embeds BranchProof::try_from_proof_slice: borsh deserialization of a
96-byte record; any other length fails (too few bytes or leftover bytes). -/
def parseBranchProof (b : List Nat) : Option BranchProof :=
  if b.length = 96 then
    some ⟨b.take 32, (b.drop 32).take 32, (b.drop 64).take 24, b.drop 88⟩
  else none

/-- Embeds LeafProof::try_from_proof_slice: borsh deserialization of a 64-byte
record; any other length fails. -/
def parseLeafProof (b : List Nat) : Option LeafProof :=
  if b.length = 64 then some ⟨b.take 32, (b.drop 32).take 24, b.drop 56⟩ else none

/-- Parses every 96-byte branch record; a failure of any record models the
unwrap panic in validate_chunk. -/
def parseBranchProofs : List (List Nat) → Option (List BranchProof)
  | [] => some []
  | b :: rest =>
    match parseBranchProof b, parseBranchProofs rest with
    | some bp, some bps => some (bp :: bps)
    | _, _ => none

/-- Embeds the chunk-range fold of generate_leaves: cumulative
(min_byte_range, max_byte_range) pairs of the chunks. -/
def chunkRanges (chunks : List (List Nat)) : List (Nat × Nat) :=
  (chunks.foldl
    (fun (acc : List (Nat × Nat) × Nat) chunk =>
      (acc.1 ++ [(acc.2, acc.2 + chunk.length)], acc.2 + chunk.length))
    ([], 0)).1

/-- Builds one leaf Node of generate_leaves from a chunk and its range. -/
def mkLeaf (chunk : List Nat) (range : Nat × Nat) : Node :=
  let data_hash := sha256 chunk
  let id := hashAllSha256 [data_hash, toNoteVec range.2]
  ⟨id, some data_hash, range.1, range.2, none, none⟩

/-- Embeds lines 101-110 of generate_leaves in src/merkle.rs: the greedy
MAX_CHUNK_SIZE split, then the merge-and-resplit of the last two chunks when
there is more than one chunk and the trailing chunk is shorter than
MIN_CHUNK_SIZE. -/
def mergedChunks (data : List Nat) : List (List Nat) :=
  let chunks0 := chunksOf MAX_CHUNK_SIZE data
  if chunks0.length > 1 ∧ (chunks0.getLast?.getD []).length < MIN_CHUNK_SIZE then
    let lastTwo := ((chunks0.drop (chunks0.length - 2)).flatten : List Nat)
    let csize := lastTwo.length / 2 + (if lastTwo.length % 2 ≠ 0 then 1 else 0)
    chunks0.take (chunks0.length - 2) ++ chunksOf csize lastTwo
  else chunks0

/-- Builds the leaf list of generate_leaves from a final chunk list. -/
def mkLeaves (chunks : List (List Nat)) : List Node :=
  (chunks.zip (chunkRanges chunks)).map fun p => mkLeaf p.1 p.2

/-- Embeds generate_leaves of src/merkle.rs: greedy MAX_CHUNK_SIZE split, a
merge-and-resplit of the last two chunks when the trailing chunk is shorter
than MIN_CHUNK_SIZE, a zero-length trailing chunk when the last chunk is
exactly MAX_CHUNK_SIZE, then one leaf per chunk. The unwrap of last() on an
empty chunk list is a panic. -/
def generateLeaves (data : List Nat) : PResult (List Node) :=
  let chunks1 := mergedChunks data
  match chunks1.getLast? with
  | none => .panic
  | some lastChunk =>
    let chunks2 := if lastChunk.length = MAX_CHUNK_SIZE then chunks1 ++ [[]] else chunks1
    .ok (mkLeaves chunks2)

/-- Embeds hash_branch of src/merkle.rs: a branch node over two children,
with id the tagged hash of the child ids and the note of the left child's
max_byte_range. -/
def hashBranch (left right : Node) : Node :=
  ⟨hashAllSha256 [left.id, right.id, toNoteVec left.max_byte_range], none,
   left.max_byte_range, right.max_byte_range, some left, some right⟩

/-- Embeds build_layer of src/merkle.rs: consecutive pairs are hashed into
branches; an unpaired trailing node is carried up unchanged. -/
def buildLayer : List Node → List Node
  | [] => []
  | [x] => [x]
  | l :: r :: rest => hashBranch l r :: buildLayer rest

/-- Fuelled worker for the while loop of generate_data_root. -/
def rootGo : Nat → List Node → PResult Node
  | _, [] => .panic
  | _, [n] => .ok n
  | 0, _ :: _ :: _ => .panic
  | fuel + 1, l => rootGo fuel (buildLayer l)

/-- Embeds generate_data_root of src/merkle.rs: repeated build_layer until a
single node remains; the pop().unwrap() on an empty list is a panic. The fuel
equals the node count, which bounds the number of layers. -/
def generateDataRoot (nodes : List Node) : PResult Node := rootGo nodes.length nodes

/-- Embeds resolve_proofs of src/merkle.rs: recursive descent accumulating
proof bytes; at a leaf the data_hash and max_byte_range note are appended and
a single proof is emitted, at a branch the child ids and the min_byte_range
note are appended and both children are resolved with copies; any other node
shape reaches unreachable (a panic). -/
def resolveProofs (node : Node) (pf : Option Proof) : PResult (List Proof) :=
  let p := pf.getD ⟨0, []⟩
  match node with
  | ⟨_, some data_hash, _, mx, none, none⟩ =>
    .ok [⟨mx - 1, p.proof ++ data_hash ++ toNoteVec mx⟩]
  | ⟨_, none, mn, _, some lc, some rc⟩ =>
    let pp := p.proof ++ lc.id ++ rc.id ++ toNoteVec mn
    match resolveProofs lc (some ⟨p.offset, pp⟩), resolveProofs rc (some ⟨p.offset, pp⟩) with
    | .ok a, .ok b => .ok (a ++ b)
    | .panic, _ => .panic
    | .err e, _ => .err e
    | _, .panic => .panic
    | _, .err e => .err e
  | _ => .panic

/-- Embeds the branch loop of validate_chunk: recompute each branch record's
id against the expected id, then descend right when the node's max_byte_range
exceeds the record's offset and left otherwise. Returns the final expected id
or none on the first mismatch. -/
def validateBranches (mx : Nat) (root_id : List Nat) : List BranchProof → Option (List Nat)
  | [] => some root_id
  | bp :: rest =>
    let id := hashAllSha256 [bp.left_id, bp.right_id, toNoteVec bp.offsetVal]
    if id = root_id then
      validateBranches mx (if mx > bp.offsetVal then bp.right_id else bp.left_id) rest
    else none

/-- Embeds validate_chunk of src/merkle.rs. A chunk without a data_hash
reaches unreachable (panic); a proof buffer shorter than the 64-byte leaf
record makes split_at panic (usize underflow); a branch record that fails to
deserialize is unwrapped (panic); a leaf record that fails to deserialize is
returned as Err; a branch hash mismatch is Err; the final leaf stage errors
only when the recomputed id differs from the expected id AND the parsed
data_hash differs from the node's data_hash. -/
def validateChunk (root_id : List Nat) (chunk : Node) (pf : Proof) : PResult Unit :=
  match chunk.data_hash with
  | none => .panic
  | some data_hash =>
    let bytes := pf.proof
    if bytes.length < HASH_SIZE + NOTE_SIZE then .panic
    else
      let branches := bytes.take (bytes.length - (HASH_SIZE + NOTE_SIZE))
      let leafBytes := bytes.drop (bytes.length - (HASH_SIZE + NOTE_SIZE))
      match parseBranchProofs (chunksOf (HASH_SIZE * 2 + NOTE_SIZE) branches) with
      | none => .panic
      | some branch_proofs =>
        match parseLeafProof leafBytes with
        | none => .err .InvalidProof
        | some leaf_proof =>
          match validateBranches chunk.max_byte_range root_id branch_proofs with
          | none => .err .InvalidProof
          | some rid =>
            let id := hashAllSha256 [data_hash, toNoteVec chunk.max_byte_range]
            if id ≠ rid ∧ data_hash ≠ leaf_proof.data_hash then .err .InvalidProof
            else .ok ()

/-- Embeds the DeepHashItem enum of src/transaction.rs: a blob of bytes or an
ordered list of items. The source's List variant is rendered as the
constructor list, since the capitalized name collides with the list type. -/
inductive DeepHashItem where
  | Blob : List Nat → DeepHashItem
  | list : List DeepHashItem → DeepHashItem
deriving Repr

/-- Embeds DeepHashItem::from_item of src/transaction.rs. -/
def DeepHashItem.fromItem (item : List Nat) : DeepHashItem := .Blob item

/-- Embeds DeepHashItem::from_children of src/transaction.rs. -/
def DeepHashItem.fromChildren (children : List DeepHashItem) : DeepHashItem := .list children

/-- Embeds the Tag struct of src/transaction.rs over Base64 byte buffers. -/
structure Tag where
  name : List Nat
  value : List Nat
deriving Repr, DecidableEq

/-- ASCII bytes of the decimal representation of a number, as produced by
to_string().as_bytes() in src/transaction.rs. -/
def decBytes (n : Nat) : List Nat := (Nat.toDigits 10 n).map Char.toNat

/-- Embeds the Transaction struct of src/transaction.rs; Base64 fields are
byte buffers, stringified numeric fields are numbers. -/
structure Transaction where
  format : Nat
  id : List Nat
  last_tx : List Nat
  owner : List Nat
  tags : List Tag
  target : List Nat
  quantity : Nat
  data_root : List Nat
  data : List Nat
  data_size : Nat
  reward : Nat
  signature : List Nat
  chunks : List Node
  proofs : List Proof

/-- Embeds Default for Transaction (all fields empty or zero). -/
def Transaction.default : Transaction :=
  ⟨0, [], [], [], [], [], 0, [], [], 0, 0, [], [], []⟩

/-- Embeds to_deep_hash_item of a single Tag in src/transaction.rs:
List([Blob(name), Blob(value)]). -/
def Tag.toDeepHashItem (t : Tag) : DeepHashItem :=
  .list [.Blob t.name, .Blob t.value]

/-- Embeds to_deep_hash_item of Vec of Tag in src/transaction.rs: a List of
the per-tag items when nonempty, Blob of the empty buffer otherwise. -/
def tagsToDeepHashItem (tags : List Tag) : DeepHashItem :=
  if tags.length > 0 then .list (tags.map Tag.toDeepHashItem)
  else .Blob []

/-- Embeds Transaction::to_deep_hash_item of src/transaction.rs: the
format-1 and format-2 field orderings, any other format reaching unreachable
(panic). -/
def Transaction.toDeepHashItem (tx : Transaction) : PResult DeepHashItem :=
  match tx.format with
  | 1 =>
    let children := ([tx.owner, tx.target, tx.data, decBytes tx.quantity,
      decBytes tx.reward, tx.last_tx].map DeepHashItem.fromItem)
      ++ [tagsToDeepHashItem tx.tags]
    .ok (DeepHashItem.fromChildren children)
  | 2 =>
    let children := ([decBytes tx.format, tx.owner, tx.target, decBytes tx.quantity,
      decBytes tx.reward, tx.last_tx].map DeepHashItem.fromItem)
      ++ [tagsToDeepHashItem tx.tags]
      ++ [DeepHashItem.fromItem (decBytes tx.data_size)]
      ++ [DeepHashItem.fromItem tx.data_root]
    .ok (DeepHashItem.fromChildren children)
  | _ => .panic

/-- Embeds merklize of src/transaction.rs: generate leaves, build the root,
resolve every proof, then drop the trailing chunk and proof when that chunk
has a zero-length byte range, producing a format-2 transaction carrying the
data, its length, the root id and the chunk/proof lists. -/
def merklize (data : List Nat) : PResult Transaction :=
  match generateLeaves data with
  | .panic => .panic
  | .err e => .err e
  | .ok chunks =>
    match generateDataRoot chunks with
    | .panic => .panic
    | .err e => .err e
    | .ok root =>
      let data_root := root.id
      match resolveProofs root none with
      | .panic => .panic
      | .err e => .err e
      | .ok proofs =>
        match chunks.getLast? with
        | none => .panic
        | some lastChunk =>
          let dropZero := lastChunk.max_byte_range = lastChunk.min_byte_range
          let chunks1 := if dropZero then chunks.dropLast else chunks
          let proofs1 := if dropZero then proofs.dropLast else proofs
          .ok { Transaction.default with
                  format := 2, data_size := data.length, data := data,
                  data_root := data_root, chunks := chunks1, proofs := proofs1 }

/-- Flips bit b of the byte at position i of a byte buffer. -/
def flipBitAt (i b : Nat) (l : List Nat) : List Nat :=
  l.set i ((l.getD i 0) ^^^ (1 <<< b))

/-- Leaf nodes of a tree in left-to-right order; a node without two children
is its own frontier. -/
def frontier (n : Node) : List Node :=
  match n with
  | ⟨_, _, _, _, some lc, some rc⟩ => frontier lc ++ frontier rc
  | n => [n]

/-- Well-formed trees as produced by generate_leaves and build_layer: leaves
carry a data_hash and the tagged hash of it with their max_byte_range note;
branches carry both children, no data_hash, the tagged hash of the child ids
with the left child's max_byte_range note, and the source's range fields. -/
inductive Good : Node → Prop
  | leaf (id dh : List Nat) (mn mx : Nat) :
      id = hashAllSha256 [dh, toNoteVec mx] → dh.length = 32 →
      Good ⟨id, some dh, mn, mx, none, none⟩
  | branch (l r : Node) (id : List Nat) :
      Good l → Good r → id = hashAllSha256 [l.id, r.id, toNoteVec l.max_byte_range] →
      Good ⟨id, none, l.max_byte_range, r.max_byte_range, some l, some r⟩

/-- Almost-strict ascending chain: nondecreasing, and strictly increasing
except possibly at the final step. -/
def AS (xs : List Nat) : Prop :=
  xs.Chain' (· ≤ ·) ∧ xs.dropLast.Chain' (· < ·)

/-- Consecutive byte ranges with the given lengths, starting at start. -/
def rangesFrom (start : Nat) : List Nat → List (Nat × Nat)
  | [] => []
  | n :: rest => (start, start + n) :: rangesFrom (start + n) rest

theorem be32_length (x : Nat) : (be32 x).length = 4 := rfl

theorem toNoteVec_length (x : Nat) : (toNoteVec x).length = 32 := by
  simp [toNoteVec, be32, NOTE_SIZE]

theorem compress_length (hs b : List Nat) : (compress hs b).length = 8 := rfl

theorem foldl_compress_length (bs : List (List Nat)) : ∀ hs : List Nat, hs.length = 8 →
    (bs.foldl compress hs).length = 8 := by
  induction bs with
  | nil => intro hs h; simpa using h
  | cons b rest ih => intro hs _; exact ih (compress hs b) (compress_length hs b)

theorem sha256_length (msg : List Nat) : (sha256 msg).length = 32 := by
  have haux : ∀ ws : List Nat, ((ws.map be32).flatten).length = 4 * ws.length := by
    intro ws
    induction ws with
    | nil => rfl
    | cons w rest ih =>
      simp only [List.map_cons, List.flatten_cons, List.length_append, be32_length, ih,
        List.length_cons]
      omega
  have h8 : ((chunksOf 64 (sha256Pad msg)).foldl compress H256).length = 8 :=
    foldl_compress_length _ H256 rfl
  simp [sha256, haux, h8]

theorem hashAllSha256_length (msgs : List (List Nat)) :
    (hashAllSha256 msgs).length = 32 := sha256_length _

theorem chunksGo_fuel (n : Nat) : ∀ fuel (l : List Nat), l.length ≤ fuel →
    chunksGo n fuel l = chunksOf n l := by
  intro fuel
  induction fuel using Nat.strong_induction_on with
  | _ fuel ih =>
    intro l hl
    by_cases hnil : l = []
    · subst hnil
      cases fuel <;> rfl
    · cases fuel with
      | zero =>
        exact absurd (List.length_eq_zero.mp (Nat.le_zero.mp hl)) hnil
      | succ f =>
        match l, hnil with
        | x :: xs, _ =>
          by_cases hn : n = 0
          · subst hn
            show (chunksGo 0 (f + 1) (x :: xs)) = chunksGo 0 (x :: xs).length (x :: xs)
            rw [List.length_cons]
            simp [chunksGo]
          · have hxs : (x :: xs).length ≤ f + 1 := hl
            have hd : ((x :: xs).drop n).length ≤ f := by
              simp only [List.length_drop, List.length_cons]
              simp only [List.length_cons] at hxs
              omega
            have hd2 : ((x :: xs).drop n).length ≤ xs.length := by
              simp only [List.length_drop, List.length_cons]
              omega
            show (chunksGo n (f + 1) (x :: xs)) = chunksGo n (x :: xs).length (x :: xs)
            rw [List.length_cons]
            simp only [chunksGo, hn, ite_false, if_neg]
            rw [ih f (Nat.lt_succ_self f) _ hd,
              ih xs.length (Nat.lt_of_le_of_lt hd (Nat.lt_succ_self f) |> fun _ => Nat.lt_succ_of_le (by
                simp only [List.length_cons] at hxs; omega)) _ hd2]

theorem chunksOf_nil (n : Nat) : chunksOf n [] = [] := rfl

theorem chunksOf_cons (n : Nat) (l : List Nat) (hn : n ≠ 0) (hl : l ≠ []) :
    chunksOf n l = l.take n :: chunksOf n (l.drop n) := by
  match l, hl with
  | x :: xs, _ =>
    show chunksGo n (x :: xs).length (x :: xs) = _
    rw [List.length_cons]
    simp only [chunksGo, hn, ite_false, if_neg]
    rw [chunksGo_fuel n xs.length _ (by simp only [List.length_drop, List.length_cons]; omega)]

theorem chunksOf_small (n : Nat) (l : List Nat) (hn : n ≠ 0) (hl : l ≠ [])
    (hs : l.length ≤ n) : chunksOf n l = [l] := by
  rw [chunksOf_cons n l hn hl, List.take_of_length_le hs, List.drop_eq_nil_of_le hs,
    chunksOf_nil]

theorem chunksOf_two (n : Nat) (l : List Nat) (hn : n ≠ 0) (h1 : n < l.length)
    (h2 : l.length ≤ 2 * n) : chunksOf n l = [l.take n, l.drop n] := by
  rw [chunksOf_cons n l hn (by intro h; subst h; simp at h1)]
  rw [chunksOf_small n (l.drop n) hn]
  · intro h
    have := congrArg List.length h
    simp only [List.length_drop, List.length_nil] at this
    omega
  · simp only [List.length_drop]
    omega

theorem chunksOf_flatten_fuel (n : Nat) (hn : n ≠ 0) : ∀ (fuel : Nat) (l : List Nat),
    l.length ≤ fuel → (chunksOf n l).flatten = l := by
  intro fuel
  induction fuel with
  | zero =>
    intro l hl
    have : l = [] := List.length_eq_zero.mp (Nat.le_zero.mp hl)
    subst this; rfl
  | succ f ih =>
    intro l hl
    by_cases hnil : l = []
    · subst hnil; rfl
    · rw [chunksOf_cons n l hn hnil, List.flatten_cons, ih (l.drop n)]
      · exact List.take_append_drop n l
      · have : 0 < l.length := List.length_pos.mpr hnil
        simp only [List.length_drop]
        omega

theorem chunksOf_flatten (n : Nat) (hn : n ≠ 0) (l : List Nat) :
    (chunksOf n l).flatten = l :=
  chunksOf_flatten_fuel n hn l.length l le_rfl

theorem chunksOf_mem_length (n : Nat) (hn : n ≠ 0) : ∀ (fuel : Nat) (l : List Nat),
    l.length ≤ fuel → ∀ c ∈ chunksOf n l, c.length ≤ n ∧ c ≠ [] := by
  intro fuel
  induction fuel with
  | zero =>
    intro l hl
    have : l = [] := List.length_eq_zero.mp (Nat.le_zero.mp hl)
    subst this; intro c hc; simp [chunksOf_nil] at hc
  | succ f ih =>
    intro l hl c hc
    by_cases hnil : l = []
    · subst hnil; simp [chunksOf_nil] at hc
    · rw [chunksOf_cons n l hn hnil] at hc
      rcases List.mem_cons.mp hc with hc | hc
      · subst hc
        constructor
        · simpa using List.length_take_le n l
        · have : 0 < l.length := List.length_pos.mpr hnil
          intro h
          have := congrArg List.length h
          simp only [List.length_take, List.length_nil] at this
          omega
      · exact ih (l.drop n) (by
          have : 0 < l.length := List.length_pos.mpr hnil
          simp only [List.length_drop]; omega) c hc

theorem chunksOf_dropLast_length (n : Nat) (hn : n ≠ 0) : ∀ (fuel : Nat) (l : List Nat),
    l.length ≤ fuel → ∀ c ∈ (chunksOf n l).dropLast, c.length = n := by
  intro fuel
  induction fuel with
  | zero =>
    intro l hl
    have : l = [] := List.length_eq_zero.mp (Nat.le_zero.mp hl)
    subst this; intro c hc; simp [chunksOf_nil] at hc
  | succ f ih =>
    intro l hl c hc
    by_cases hnil : l = []
    · subst hnil; simp [chunksOf_nil] at hc
    · rw [chunksOf_cons n l hn hnil] at hc
      have hlen : 0 < l.length := List.length_pos.mpr hnil
      by_cases hrest : chunksOf n (l.drop n) = []
      · rw [hrest] at hc; simp at hc
      · rw [List.dropLast_cons_of_ne_nil hrest] at hc
        rcases List.mem_cons.mp hc with hc | hc
        · subst hc
          have hlong : n < l.length := by
            by_contra hle
            push_neg at hle
            rw [List.drop_eq_nil_of_le hle, chunksOf_nil] at hrest
            exact hrest rfl
          simp [List.length_take]
          omega
        · exact ih (l.drop n) (by simp only [List.length_drop]; omega) c hc

theorem rangesFrom_length (lens : List Nat) : ∀ s, (rangesFrom s lens).length = lens.length := by
  induction lens with
  | nil => intro s; rfl
  | cons n rest ih => intro s; simp [rangesFrom, ih]

theorem chunkRanges_eq_aux (chunks : List (List Nat)) :
    ∀ (acc : List (Nat × Nat)) (s : Nat),
      (chunks.foldl
        (fun (a : List (Nat × Nat) × Nat) chunk =>
          (a.1 ++ [(a.2, a.2 + chunk.length)], a.2 + chunk.length)) (acc, s)).1
      = acc ++ rangesFrom s (chunks.map List.length) := by
  induction chunks with
  | nil => intro acc s; simp [rangesFrom]
  | cons c rest ih =>
    intro acc s
    simp only [List.foldl_cons, List.map_cons, rangesFrom]
    rw [ih]
    simp

theorem chunkRanges_eq (chunks : List (List Nat)) :
    chunkRanges chunks = rangesFrom 0 (chunks.map List.length) := by
  simpa [chunkRanges] using chunkRanges_eq_aux chunks [] 0

theorem rangesFrom_chain (lens : List Nat) :
    ∀ s, (rangesFrom s lens).Chain' (fun a b => a.2 = b.1) := by
  induction lens with
  | nil => intro s; simp [rangesFrom]
  | cons n rest ih =>
    intro s
    cases rest with
    | nil => simp [rangesFrom]
    | cons m r2 =>
      simp only [rangesFrom, List.chain'_cons]
      refine ⟨by simp, ?_⟩
      simpa [rangesFrom] using ih (s + n)

theorem rangesFrom_head (s n : Nat) (rest : List Nat) :
    (rangesFrom s (n :: rest)).head? = some (s, s + n) := rfl

theorem rangesFrom_getLast (lens : List Nat) (h : lens ≠ []) :
    ∀ s, ∃ r, (rangesFrom s lens).getLast? = some r ∧ r.2 = s + lens.sum := by
  induction lens with
  | nil => exact absurd rfl h
  | cons n rest ih =>
    intro s
    cases hr : rest with
    | nil => exact ⟨(s, s + n), by simp [rangesFrom], by simp⟩
    | cons m r2 =>
      subst hr
      obtain ⟨r, hr1, hr2⟩ := ih (by simp) (s + n)
      have h2 : rangesFrom s (n :: m :: r2) =
          (s, s + n) :: (s + n, s + n + m) :: rangesFrom (s + n + m) r2 := rfl
      have h3 : rangesFrom (s + n) (m :: r2) =
          (s + n, s + n + m) :: rangesFrom (s + n + m) r2 := rfl
      refine ⟨r, ?_, ?_⟩
      · rw [h2, List.getLast?_cons_cons]
        rw [h3] at hr1
        exact hr1
      · simp only [List.sum_cons] at hr2 ⊢
        omega

theorem rangesFrom_mem (lens : List Nat) :
    ∀ s, ∀ r ∈ rangesFrom s lens, r.1 ≤ r.2 ∧ r.2 - r.1 ∈ lens := by
  induction lens with
  | nil => intro s r hr; simp [rangesFrom] at hr
  | cons n rest ih =>
    intro s r hr
    simp only [rangesFrom, List.mem_cons] at hr
    rcases hr with hr | hr
    · subst hr; simp
    · rcases ih (s + n) r hr with ⟨h1, h2⟩
      exact ⟨h1, List.mem_cons_of_mem n h2⟩

theorem rangesFrom_dropLast (lens : List Nat) :
    ∀ s, (rangesFrom s lens).dropLast = rangesFrom s lens.dropLast := by
  induction lens with
  | nil => intro s; rfl
  | cons n rest ih =>
    intro s
    cases rest with
    | nil => rfl
    | cons m r2 =>
      have h1 : rangesFrom s (n :: m :: r2) = (s, s + n) :: rangesFrom (s + n) (m :: r2) := rfl
      have h2 : rangesFrom (s + n) (m :: r2) ≠ [] := by
        intro h
        have := congrArg List.length h
        rw [rangesFrom_length] at this
        simp at this
      rw [h1, List.dropLast_cons_of_ne_nil h2, ih (s + n)]
      rfl

theorem exists_append_two {α : Type} (l : List α) (h : 2 ≤ l.length) :
    ∃ init a b, l = init ++ [a, b] := by
  induction l with
  | nil => simp at h
  | cons x xs ih =>
    cases xs with
    | nil => simp at h
    | cons y ys =>
      cases ys with
      | nil => exact ⟨[], x, y, rfl⟩
      | cons z zs =>
        obtain ⟨init, a, b, hab⟩ := ih (by simp only [List.length_cons]; omega)
        exact ⟨x :: init, a, b, by rw [List.cons_append, ← hab]⟩

/-- Recursive characterization of the leaf builder of generate_leaves. -/
def leavesGo (s : Nat) : List (List Nat) → List Node
  | [] => []
  | c :: rest => mkLeaf c (s, s + c.length) :: leavesGo (s + c.length) rest

theorem mkLeaves_go_aux (cs : List (List Nat)) :
    ∀ s, (cs.zip (rangesFrom s (cs.map List.length))).map (fun p => mkLeaf p.1 p.2)
      = leavesGo s cs := by
  induction cs with
  | nil => intro s; rfl
  | cons c rest ih =>
    intro s
    simp only [List.map_cons, rangesFrom, List.zip_cons_cons, List.map_cons, leavesGo]
    rw [ih (s + c.length)]

theorem mkLeaves_eq (cs : List (List Nat)) : mkLeaves cs = leavesGo 0 cs := by
  rw [mkLeaves, chunkRanges_eq, mkLeaves_go_aux]

theorem leavesGo_ranges (cs : List (List Nat)) :
    ∀ s, (leavesGo s cs).map (fun nd => (nd.min_byte_range, nd.max_byte_range))
      = rangesFrom s (cs.map List.length) := by
  induction cs with
  | nil => intro s; rfl
  | cons c rest ih =>
    intro s
    simp only [leavesGo, List.map_cons, rangesFrom, mkLeaf]
    rw [ih (s + c.length)]

theorem leavesGo_length (cs : List (List Nat)) : ∀ s, (leavesGo s cs).length = cs.length := by
  induction cs with
  | nil => intro s; rfl
  | cons c rest ih => intro s; simp only [leavesGo, List.length_cons, ih (s + c.length)]

theorem csize_pos (n : Nat) (h : 1 ≤ n) :
    n / 2 + (if n % 2 ≠ 0 then 1 else 0) ≠ 0 := by
  split <;> omega

theorem mergedChunks_flatten (data : List Nat) : (mergedChunks data).flatten = data := by
  have hM : MAX_CHUNK_SIZE ≠ 0 := by decide
  unfold mergedChunks
  by_cases hg : (chunksOf MAX_CHUNK_SIZE data).length > 1 ∧
      ((chunksOf MAX_CHUNK_SIZE data).getLast?.getD []).length < MIN_CHUNK_SIZE
  · rw [if_pos hg]
    obtain ⟨init, a, b, hdec⟩ := exists_append_two (chunksOf MAX_CHUNK_SIZE data) (by omega)
    have hlen : (chunksOf MAX_CHUNK_SIZE data).length = init.length + 2 := by
      rw [hdec]; simp
    have hlen2 : (init ++ [a, b]).length - 2 = init.length := by simp
    have htake : (chunksOf MAX_CHUNK_SIZE data).take ((chunksOf MAX_CHUNK_SIZE data).length - 2)
        = init := by
      rw [hdec, hlen2]
      exact List.take_left init [a, b]
    have hdrop : (chunksOf MAX_CHUNK_SIZE data).drop ((chunksOf MAX_CHUNK_SIZE data).length - 2)
        = [a, b] := by
      rw [hdec, hlen2]
      exact List.drop_left init [a, b]
    have hbne : b ≠ [] :=
      (chunksOf_mem_length MAX_CHUNK_SIZE hM data.length data le_rfl b
        (by rw [hdec]; simp)).2
    have hflat2 : ([a, b].flatten : List Nat) = a ++ b := by simp
    have hble : 1 ≤ b.length := by
      rcases Nat.eq_zero_or_pos b.length with h0 | hpos
      · exact absurd (List.length_eq_zero.mp h0) hbne
      · exact hpos
    rw [htake, hdrop]
    simp only [hflat2]
    have hcs : (a ++ b).length / 2 + (if (a ++ b).length % 2 ≠ 0 then 1 else 0) ≠ 0 := by
      apply csize_pos
      simp only [List.length_append]
      omega
    rw [List.flatten_append, chunksOf_flatten _ hcs]
    have hdata : data = (init ++ [a, b]).flatten := by
      rw [← hdec, chunksOf_flatten MAX_CHUNK_SIZE hM data]
    rw [hdata]
    simp
  · rw [if_neg hg]
    exact chunksOf_flatten MAX_CHUNK_SIZE hM data

theorem mergedChunks_ne_nil (data : List Nat) (h : data ≠ []) : mergedChunks data ≠ [] := by
  have hflat : (mergedChunks data).flatten = data := mergedChunks_flatten data
  intro hc
  rw [hc] at hflat
  exact h hflat.symm

theorem mergedChunks_cases (data : List Nat) :
    (mergedChunks data = chunksOf MAX_CHUNK_SIZE data ∧
      ¬((chunksOf MAX_CHUNK_SIZE data).length > 1 ∧
        ((chunksOf MAX_CHUNK_SIZE data).getLast?.getD []).length < MIN_CHUNK_SIZE)) ∨
    ∃ init a b, chunksOf MAX_CHUNK_SIZE data = init ++ [a, b] ∧
      a.length = MAX_CHUNK_SIZE ∧ 1 ≤ b.length ∧ b.length < MIN_CHUNK_SIZE ∧
      (chunksOf MAX_CHUNK_SIZE data).take ((chunksOf MAX_CHUNK_SIZE data).length - 2) = init ∧
      (chunksOf MAX_CHUNK_SIZE data).drop ((chunksOf MAX_CHUNK_SIZE data).length - 2) = [a, b] ∧
      mergedChunks data = init
        ++ [(a ++ b).take ((a ++ b).length / 2 + (if (a ++ b).length % 2 ≠ 0 then 1 else 0)),
            (a ++ b).drop ((a ++ b).length / 2 + (if (a ++ b).length % 2 ≠ 0 then 1 else 0))] := by
  have hM : MAX_CHUNK_SIZE ≠ 0 := by decide
  by_cases hg : (chunksOf MAX_CHUNK_SIZE data).length > 1 ∧
      ((chunksOf MAX_CHUNK_SIZE data).getLast?.getD []).length < MIN_CHUNK_SIZE
  · right
    obtain ⟨init, a, b, hdec⟩ := exists_append_two (chunksOf MAX_CHUNK_SIZE data) (by omega)
    have hlen2 : (init ++ [a, b]).length - 2 = init.length := by simp
    have htake : (chunksOf MAX_CHUNK_SIZE data).take ((chunksOf MAX_CHUNK_SIZE data).length - 2)
        = init := by
      rw [hdec, hlen2]
      exact List.take_left init [a, b]
    have hdrop : (chunksOf MAX_CHUNK_SIZE data).drop ((chunksOf MAX_CHUNK_SIZE data).length - 2)
        = [a, b] := by
      rw [hdec, hlen2]
      exact List.drop_left init [a, b]
    have hadl : a ∈ (chunksOf MAX_CHUNK_SIZE data).dropLast := by
      rw [hdec, show init ++ [a, b] = (init ++ [a]) ++ [b] by simp, List.dropLast_concat]
      simp
    have ha : a.length = MAX_CHUNK_SIZE :=
      chunksOf_dropLast_length MAX_CHUNK_SIZE hM data.length data le_rfl a hadl
    have hblast : (chunksOf MAX_CHUNK_SIZE data).getLast? = some b := by
      rw [hdec, show init ++ [a, b] = (init ++ [a]) ++ [b] by simp, List.getLast?_concat]
    have hbmem : b ∈ chunksOf MAX_CHUNK_SIZE data := by rw [hdec]; simp
    have hbne : b ≠ [] :=
      (chunksOf_mem_length MAX_CHUNK_SIZE hM data.length data le_rfl b hbmem).2
    have hble : 1 ≤ b.length := by
      rcases Nat.eq_zero_or_pos b.length with h0 | hpos
      · exact absurd (List.length_eq_zero.mp h0) hbne
      · exact hpos
    have hblt : b.length < MIN_CHUNK_SIZE := by
      have := hg.2
      rw [hblast] at this
      simpa using this
    refine ⟨init, a, b, hdec, ha, hble, hblt, htake, hdrop, ?_⟩
    unfold mergedChunks
    rw [if_pos hg, htake, hdrop]
    have hflat2 : ([a, b].flatten : List Nat) = a ++ b := by simp
    simp only [hflat2]
    congr 1
    apply chunksOf_two
    · apply csize_pos
      simp only [List.length_append]
      omega
    · have hMv : MAX_CHUNK_SIZE = 262144 := rfl
      simp only [List.length_append]
      split <;> omega
    · have hMv : MAX_CHUNK_SIZE = 262144 := rfl
      have hmv : MIN_CHUNK_SIZE = 32768 := rfl
      rw [hMv] at ha
      rw [hmv] at hblt
      simp only [List.length_append]
      split <;> omega
  · left
    refine ⟨?_, hg⟩
    unfold mergedChunks
    rw [if_neg hg]

theorem mergedChunks_mem (data : List Nat) :
    ∀ c ∈ mergedChunks data, c ≠ [] ∧ c.length ≤ MAX_CHUNK_SIZE := by
  have hM : MAX_CHUNK_SIZE ≠ 0 := by decide
  intro c hc
  rcases mergedChunks_cases data with ⟨hcase, _⟩ | ⟨init, a, b, hdec, ha, hble, hblt, _, _, heq⟩
  · rw [hcase] at hc
    have := chunksOf_mem_length MAX_CHUNK_SIZE hM data.length data le_rfl c hc
    exact ⟨this.2, this.1⟩
  · rw [heq] at hc
    have hMv : MAX_CHUNK_SIZE = 262144 := rfl
    have hmv : MIN_CHUNK_SIZE = 32768 := rfl
    rw [hMv] at ha
    rw [hmv] at hblt
    rcases List.mem_append.mp hc with hc | hc
    · have hcm : c ∈ chunksOf MAX_CHUNK_SIZE data := by rw [hdec]; simp [hc]
      have := chunksOf_mem_length MAX_CHUNK_SIZE hM data.length data le_rfl c hcm
      exact ⟨this.2, this.1⟩
    · have hablen : (a ++ b).length = 262144 + b.length := by simp [ha]
      rcases List.mem_cons.mp hc with hc | hc
      · subst hc
        constructor
        · intro h
          have := congrArg List.length h
          simp only [List.length_take, List.length_nil, hablen] at this
          split at this <;> omega
        · simp only [List.length_take, hablen, hMv]
          split <;> omega
      · rcases List.mem_cons.mp hc with hc | hc
        · subst hc
          constructor
          · intro h
            have := congrArg List.length h
            simp only [List.length_drop, List.length_nil, hablen] at this
            split at this <;> omega
          · simp only [List.length_drop, hablen, hMv]
            split <;> omega
        · simp at hc

theorem finalChunks_spec (data : List Nat) (h : data ≠ []) :
    ∃ cs2, generateLeaves data = .ok (mkLeaves cs2) ∧ cs2 ≠ [] ∧ cs2.flatten = data ∧
      (∀ c ∈ cs2.dropLast, c ≠ []) ∧ (∀ c ∈ cs2, c.length ≤ MAX_CHUNK_SIZE) := by
  have hne := mergedChunks_ne_nil data h
  obtain ⟨lc, hlc⟩ := Option.isSome_iff_exists.mp (List.getLast?_isSome.mpr hne)
  refine ⟨if lc.length = MAX_CHUNK_SIZE then mergedChunks data ++ [[]] else mergedChunks data,
    ?_, ?_, ?_, ?_, ?_⟩
  · show (match (mergedChunks data).getLast? with
        | none => PResult.panic
        | some lastChunk =>
          PResult.ok (mkLeaves
            (if lastChunk.length = MAX_CHUNK_SIZE then mergedChunks data ++ [[]]
             else mergedChunks data))) =
      PResult.ok (mkLeaves
        (if lc.length = MAX_CHUNK_SIZE then mergedChunks data ++ [[]] else mergedChunks data))
    rw [hlc]
  · split
    · simp
    · exact hne
  · split
    · rw [List.flatten_append, mergedChunks_flatten]
      simp
    · exact mergedChunks_flatten data
  · intro c hc
    split at hc
    · rw [List.dropLast_concat] at hc
      exact (mergedChunks_mem data c hc).1
    · exact (mergedChunks_mem data c (List.dropLast_sublist _ |>.mem hc)).1
  · intro c hc
    split at hc
    · rcases List.mem_append.mp hc with hc | hc
      · exact (mergedChunks_mem data c hc).2
      · simp at hc
        subst hc
        simp
    · exact (mergedChunks_mem data c hc).2

theorem leavesGo_sizes (cs : List (List Nat)) :
    ∀ s, (leavesGo s cs).map (fun nd => nd.max_byte_range - nd.min_byte_range)
      = cs.map List.length := by
  induction cs with
  | nil => intro s; rfl
  | cons c rest ih =>
    intro s
    simp only [leavesGo, List.map_cons, mkLeaf]
    rw [ih (s + c.length)]
    simp

theorem generateLeaves_nil : generateLeaves ([] : List Nat) = .panic := rfl

theorem generateLeaves_eq_of_getLast (data : List Nat) (lc : List Nat)
    (hlc : (mergedChunks data).getLast? = some lc) :
    generateLeaves data = .ok (mkLeaves
      (if lc.length = MAX_CHUNK_SIZE then mergedChunks data ++ [[]]
       else mergedChunks data)) := by
  show (match (mergedChunks data).getLast? with
      | none => PResult.panic
      | some lastChunk =>
        PResult.ok (mkLeaves
          (if lastChunk.length = MAX_CHUNK_SIZE then mergedChunks data ++ [[]]
           else mergedChunks data))) = _
  rw [hlc]

/-- C3: generate_leaves on the empty buffer does not produce a single
zero-length leaf; its chunk list is empty, so the unwrap of last() panics.
The claimed normal termination with one leaf at range [0,0) fails. -/
theorem generateLeaves_empty_buffer_panics : generateLeaves ([] : List Nat) = .panic :=
  generateLeaves_nil

/-- C5 counterexample: at the concrete input of the empty buffer,
generate_leaves produces no leaf list at all (it panics), so no leaf ranges
partitioning [0, 0) exist. -/
theorem generateLeaves_empty_no_partition :
    ¬ ∃ leaves, generateLeaves ([] : List Nat) = .ok leaves := by
  rintro ⟨leaves, h⟩
  rw [generateLeaves_nil] at h
  exact PResult.noConfusion h

/-- C5 (amended to nonempty buffers): for every nonempty input, the leaf byte
ranges are contiguous in order, start at 0, end at the input length, have
positive length except possibly the trailing range, and none exceeds
MAX_CHUNK_SIZE. -/
theorem generateLeaves_partition (data : List Nat) (hne : data ≠ []) :
    ∃ leaves, generateLeaves data = .ok leaves ∧ leaves ≠ [] ∧
      (leaves.map fun nd => (nd.min_byte_range, nd.max_byte_range)).Chain'
        (fun a b => a.2 = b.1) ∧
      (∃ r0, (leaves.map fun nd => (nd.min_byte_range, nd.max_byte_range)).head? = some r0 ∧
        r0.1 = 0) ∧
      (∃ rl, (leaves.map fun nd => (nd.min_byte_range, nd.max_byte_range)).getLast? = some rl ∧
        rl.2 = data.length) ∧
      (∀ nd ∈ leaves, nd.min_byte_range ≤ nd.max_byte_range ∧
        nd.max_byte_range - nd.min_byte_range ≤ MAX_CHUNK_SIZE) ∧
      ∀ nd ∈ leaves.dropLast, nd.min_byte_range < nd.max_byte_range := by
  obtain ⟨cs2, hok, hcs2ne, hflat, hdropne, hmaxlen⟩ := finalChunks_spec data hne
  have hmap : (mkLeaves cs2).map (fun nd => (nd.min_byte_range, nd.max_byte_range))
      = rangesFrom 0 (cs2.map List.length) := by
    rw [mkLeaves_eq]
    exact leavesGo_ranges cs2 0
  refine ⟨mkLeaves cs2, hok, ?_, ?_, ?_, ?_, ?_, ?_⟩
  · rw [mkLeaves_eq]
    intro hE
    have := congrArg List.length hE
    rw [leavesGo_length] at this
    simp only [List.length_nil] at this
    exact hcs2ne (List.length_eq_zero.mp this)
  · rw [hmap]
    exact rangesFrom_chain _ 0
  · obtain ⟨c, rest, hcons⟩ := List.exists_cons_of_ne_nil hcs2ne
    refine ⟨(0, 0 + c.length), ?_, rfl⟩
    rw [hmap, hcons]
    simp only [List.map_cons]
    exact rangesFrom_head 0 c.length _
  · have hlne : cs2.map List.length ≠ [] := by
      intro hE
      exact hcs2ne (List.map_eq_nil_iff.mp hE)
    obtain ⟨r, hr1, hr2⟩ := rangesFrom_getLast (cs2.map List.length) hlne 0
    refine ⟨r, by rw [hmap]; exact hr1, ?_⟩
    rw [hr2]
    have hsum : (cs2.map List.length).sum = data.length := by
      rw [← List.length_flatten, hflat]
    omega
  · intro nd hnd
    have hmem : (nd.min_byte_range, nd.max_byte_range) ∈ rangesFrom 0 (cs2.map List.length) := by
      rw [← hmap]
      exact List.mem_map_of_mem _ hnd
    obtain ⟨h1, h2⟩ := rangesFrom_mem _ 0 _ hmem
    refine ⟨h1, ?_⟩
    obtain ⟨c, hc, hcl⟩ := List.mem_map.mp h2
    rw [← hcl]
    exact hmaxlen c hc
  · intro nd hnd
    have hmem : (nd.min_byte_range, nd.max_byte_range)
        ∈ rangesFrom 0 (cs2.dropLast.map List.length) := by
      have h0 : (nd.min_byte_range, nd.max_byte_range)
          ∈ ((mkLeaves cs2).map fun nd => (nd.min_byte_range, nd.max_byte_range)).dropLast := by
        rw [← List.map_dropLast]
        exact List.mem_map_of_mem _ hnd
      rw [hmap, rangesFrom_dropLast, ← List.map_dropLast] at h0
      exact h0
    obtain ⟨h1, h2⟩ := rangesFrom_mem _ 0 _ hmem
    obtain ⟨c, hc, hcl⟩ := List.mem_map.mp h2
    have hcne := hdropne c hc
    have hpos : 1 ≤ c.length := by
      rcases Nat.eq_zero_or_pos c.length with h0 | hp
      · exact absurd (List.length_eq_zero.mp h0) hcne
      · exact hp
    omega

/-- C5 witness: the partition property at a concrete nonempty buffer of
three bytes. -/
theorem generateLeaves_partition_witness :
    ([5, 6, 7] : List Nat) ≠ [] ∧
    ∃ leaves, generateLeaves [5, 6, 7] = .ok leaves ∧ leaves ≠ [] ∧
      (leaves.map fun nd => (nd.min_byte_range, nd.max_byte_range)).Chain'
        (fun a b => a.2 = b.1) ∧
      (∃ r0, (leaves.map fun nd => (nd.min_byte_range, nd.max_byte_range)).head? = some r0 ∧
        r0.1 = 0) ∧
      (∃ rl, (leaves.map fun nd => (nd.min_byte_range, nd.max_byte_range)).getLast? = some rl ∧
        rl.2 = ([5, 6, 7] : List Nat).length) ∧
      (∀ nd ∈ leaves, nd.min_byte_range ≤ nd.max_byte_range ∧
        nd.max_byte_range - nd.min_byte_range ≤ MAX_CHUNK_SIZE) ∧
      ∀ nd ∈ leaves.dropLast, nd.min_byte_range < nd.max_byte_range :=
  ⟨by simp, generateLeaves_partition [5, 6, 7] (by simp)⟩

/-- C6: when the greedy split leaves more than one chunk and a trailing chunk
below MIN_CHUNK_SIZE, the last two greedy chunks are replaced by exactly two
chunks of sizes ceil(n/2) and floor(n/2) of their combined length n, in that
order. -/
theorem generateLeaves_resplit (data : List Nat)
    (h1 : 1 < (chunksOf MAX_CHUNK_SIZE data).length)
    (h2 : ((chunksOf MAX_CHUNK_SIZE data).getLast?.getD []).length < MIN_CHUNK_SIZE) :
    ∃ leaves, generateLeaves data = .ok leaves ∧
      leaves.map (fun nd => nd.max_byte_range - nd.min_byte_range)
        = ((chunksOf MAX_CHUNK_SIZE data).take ((chunksOf MAX_CHUNK_SIZE data).length - 2)).map
            List.length
          ++ [((((chunksOf MAX_CHUNK_SIZE data).drop
                  ((chunksOf MAX_CHUNK_SIZE data).length - 2)).flatten).length + 1) / 2,
              (((chunksOf MAX_CHUNK_SIZE data).drop
                  ((chunksOf MAX_CHUNK_SIZE data).length - 2)).flatten).length / 2] ∧
      leaves.length = (chunksOf MAX_CHUNK_SIZE data).length := by
  rcases mergedChunks_cases data with ⟨_, hng⟩ | ⟨init, a, b, hdec, ha, hble, hblt, htake, hdrop, heq⟩
  · exact absurd ⟨h1, h2⟩ hng
  · have hMv : MAX_CHUNK_SIZE = 262144 := rfl
    have hmv : MIN_CHUNK_SIZE = 32768 := rfl
    have hab : (a ++ b).length = 262144 + b.length := by simp [ha, hMv]
    have hblt2 : b.length < 32768 := by rw [hmv] at hblt; exact hblt
    have hcsize : (a ++ b).length / 2 + (if (a ++ b).length % 2 ≠ 0 then 1 else 0)
        = ((a ++ b).length + 1) / 2 := by
      split <;> omega
    have hcsle : ((a ++ b).length + 1) / 2 ≤ (a ++ b).length := by omega
    have htklen : ((a ++ b).take (((a ++ b).length + 1) / 2)).length
        = ((a ++ b).length + 1) / 2 := by
      simp only [List.length_take]
      omega
    have hdplen : ((a ++ b).drop (((a ++ b).length + 1) / 2)).length
        = (a ++ b).length / 2 := by
      simp only [List.length_drop]
      omega
    have heq2 : mergedChunks data = init
        ++ [(a ++ b).take (((a ++ b).length + 1) / 2),
            (a ++ b).drop (((a ++ b).length + 1) / 2)] := by
      rw [heq, hcsize]
    have hlastm : (mergedChunks data).getLast?
        = some ((a ++ b).drop (((a ++ b).length + 1) / 2)) := by
      rw [heq2, show init ++ [(a ++ b).take (((a ++ b).length + 1) / 2),
          (a ++ b).drop (((a ++ b).length + 1) / 2)]
        = (init ++ [(a ++ b).take (((a ++ b).length + 1) / 2)])
          ++ [(a ++ b).drop (((a ++ b).length + 1) / 2)] by simp, List.getLast?_concat]
    have hnopad : ((a ++ b).drop (((a ++ b).length + 1) / 2)).length ≠ MAX_CHUNK_SIZE := by
      rw [hdplen, hMv]
      omega
    have hok := generateLeaves_eq_of_getLast data _ hlastm
    rw [if_neg hnopad] at hok
    refine ⟨mkLeaves (mergedChunks data), hok, ?_, ?_⟩
    · rw [mkLeaves_eq, leavesGo_sizes, heq2, htake, hdrop]
      have hfl : ([a, b].flatten : List Nat) = a ++ b := by simp
      rw [hfl]
      simp only [List.map_append, List.map_cons, List.map_nil, htklen, hdplen]
    · rw [mkLeaves_eq, leavesGo_length, heq2, hdec]
      simp

/-- C6 witness: for the 257 KiB buffer the merge-and-resplit premises hold,
and the conclusion follows by the resplit theorem; the two final chunk sizes
are both 131584 bytes. -/
theorem generateLeaves_resplit_witness :
    1 < (chunksOf MAX_CHUNK_SIZE (List.replicate 263168 (0 : Nat))).length ∧
    ((chunksOf MAX_CHUNK_SIZE (List.replicate 263168 (0 : Nat))).getLast?.getD []).length
      < MIN_CHUNK_SIZE ∧
    ∃ leaves, generateLeaves (List.replicate 263168 (0 : Nat)) = .ok leaves ∧
      leaves.map (fun nd => nd.max_byte_range - nd.min_byte_range)
        = ((chunksOf MAX_CHUNK_SIZE (List.replicate 263168 (0 : Nat))).take
              ((chunksOf MAX_CHUNK_SIZE (List.replicate 263168 (0 : Nat))).length - 2)).map
            List.length
          ++ [((((chunksOf MAX_CHUNK_SIZE (List.replicate 263168 (0 : Nat))).drop
                  ((chunksOf MAX_CHUNK_SIZE (List.replicate 263168 (0 : Nat))).length
                    - 2)).flatten).length + 1) / 2,
              (((chunksOf MAX_CHUNK_SIZE (List.replicate 263168 (0 : Nat))).drop
                  ((chunksOf MAX_CHUNK_SIZE (List.replicate 263168 (0 : Nat))).length
                    - 2)).flatten).length / 2] ∧
      leaves.length = (chunksOf MAX_CHUNK_SIZE (List.replicate 263168 (0 : Nat))).length := by
  have hM0 : MAX_CHUNK_SIZE ≠ 0 := by decide
  have hsplit : chunksOf MAX_CHUNK_SIZE (List.replicate 263168 (0 : Nat))
      = [(List.replicate 263168 (0 : Nat)).take MAX_CHUNK_SIZE,
         (List.replicate 263168 (0 : Nat)).drop MAX_CHUNK_SIZE] := by
    apply chunksOf_two _ _ hM0 <;> rw [List.length_replicate] <;> decide
  have h1 : 1 < (chunksOf MAX_CHUNK_SIZE (List.replicate 263168 (0 : Nat))).length := by
    rw [hsplit]
    simp only [List.length_cons, List.length_nil]
    omega
  have h2 : ((chunksOf MAX_CHUNK_SIZE
      (List.replicate 263168 (0 : Nat))).getLast?.getD []).length < MIN_CHUNK_SIZE := by
    rw [hsplit]
    rw [List.getLast?_cons_cons, List.getLast?_singleton, Option.getD_some,
      List.length_drop, List.length_replicate]
    decide
  exact ⟨h1, h2, generateLeaves_resplit (List.replicate 263168 (0 : Nat)) h1 h2⟩

/-- Frontier maxima of a tree: the max_byte_range of each leaf in order. -/
def fmax (t : Node) : List Nat := (frontier t).map Node.max_byte_range

theorem frontier_two_children (id : List Nat) (dh : Option (List Nat)) (mn mx : Nat)
    (l r : Node) :
    frontier ⟨id, dh, mn, mx, some l, some r⟩ = frontier l ++ frontier r := by
  simp [frontier]

theorem frontier_leaf_node (id : List Nat) (dh : Option (List Nat)) (mn mx : Nat) :
    frontier ⟨id, dh, mn, mx, none, none⟩ = [⟨id, dh, mn, mx, none, none⟩] := by
  simp [frontier]

theorem Good.id_len {t : Node} (h : Good t) : t.id.length = 32 := by
  cases h with
  | leaf id dh mn mx hid hdl => rw [hid]; exact hashAllSha256_length _
  | branch l r id hl hr hid => rw [hid]; exact hashAllSha256_length _

theorem Good.frontier_ne {t : Node} (h : Good t) : frontier t ≠ [] := by
  induction h with
  | leaf id dh mn mx hid hdl => rw [frontier_leaf_node]; simp
  | branch l r id hl hr hid ihl ihr =>
    rw [frontier_two_children]
    intro hE
    rcases List.append_eq_nil.mp hE with ⟨h1, _⟩
    exact ihl h1

theorem Good.fmax_getLast {t : Node} (h : Good t) :
    (fmax t).getLast? = some t.max_byte_range := by
  induction h with
  | leaf id dh mn mx hid hdl =>
    rw [fmax, frontier_leaf_node]
    rfl
  | branch l r id hl hr hid ihl ihr =>
    rw [fmax, frontier_two_children, List.map_append,
      List.getLast?_append_of_ne_nil]
    · exact ihr
    · intro hE
      exact hr.frontier_ne (List.map_eq_nil_iff.mp hE)

theorem Good.frontier_leaves {t : Node} (h : Good t) :
    ∀ x ∈ frontier t, ∃ dh, x.data_hash = some dh ∧ dh.length = 32 ∧
      x.id = hashAllSha256 [dh, toNoteVec x.max_byte_range] := by
  induction h with
  | leaf id dh mn mx hid hdl =>
    intro x hx
    rw [frontier_leaf_node] at hx
    rcases List.mem_singleton.mp hx with rfl
    exact ⟨dh, rfl, hdl, hid⟩
  | branch l r id hl hr hid ihl ihr =>
    intro x hx
    rw [frontier_two_children] at hx
    rcases List.mem_append.mp hx with hx | hx
    · exact ihl x hx
    · exact ihr x hx

theorem chain_le_getLast (xs : List Nat) (h : xs.Chain' (· ≤ ·)) :
    ∀ x ∈ xs, ∀ lst, xs.getLast? = some lst → x ≤ lst := by
  induction xs with
  | nil => intro x hx; simp at hx
  | cons a t ih =>
    intro x hx lst hlst
    cases t with
    | nil =>
      rcases List.mem_singleton.mp hx with rfl
      simp only [List.getLast?_singleton, Option.some.injEq] at hlst
      omega
    | cons b t2 =>
      rw [List.getLast?_cons_cons] at hlst
      rw [List.chain'_cons] at h
      rcases List.mem_cons.mp hx with rfl | hx
      · have hb : b ≤ lst := ih h.2 b (List.mem_cons_self b t2) lst hlst
        omega
      · exact ih h.2 x hx lst hlst

theorem chain_le_head (xs : List Nat) (h : xs.Chain' (· ≤ ·)) :
    ∀ hd, xs.head? = some hd → ∀ x ∈ xs, hd ≤ x := by
  induction xs with
  | nil => intro hd hhd; simp at hhd
  | cons a t ih =>
    intro hd hhd x hx
    simp only [List.head?_cons, Option.some.injEq] at hhd
    subst hhd
    rcases List.mem_cons.mp hx with rfl | hx
    · exact le_rfl
    · cases t with
      | nil => simp at hx
      | cons b t2 =>
        rw [List.chain'_cons] at h
        have hb : b ≤ x := ih h.2 b rfl x hx
        omega

theorem AS_append_left (xs ys : List Nat) (h : AS (xs ++ ys)) : AS xs := by
  constructor
  · exact h.1.sublist (List.sublist_append_left xs ys)
  · apply h.2.sublist
    by_cases hy : ys = []
    · subst hy
      rw [List.append_nil]
    · rw [List.dropLast_append_of_ne_nil xs hy]
      exact (List.dropLast_sublist xs).trans (List.sublist_append_left xs ys.dropLast)

theorem AS_append_right (xs ys : List Nat) (h : AS (xs ++ ys)) : AS ys := by
  constructor
  · exact h.1.suffix (List.suffix_append xs ys)
  · by_cases hy : ys = []
    · subst hy
      simp
    · apply h.2.suffix
      rw [List.dropLast_append_of_ne_nil xs hy]
      exact List.suffix_append xs ys.dropLast

theorem AS_boundary (xs ys : List Nat) (h : AS (xs ++ ys)) (lst : Nat)
    (hlst : xs.getLast? = some lst) (hys : 2 ≤ ys.length) : ∀ y ∈ ys, lst < y := by
  have hyne : ys ≠ [] := by
    intro hE
    rw [hE] at hys
    simp at hys
  have hdne : ys.dropLast ≠ [] := by
    intro hE
    have := congrArg List.length hE
    rw [List.length_dropLast] at this
    simp at this
    omega
  have hchain : (xs ++ ys.dropLast).Chain' (· < ·) := by
    have := h.2
    rwa [List.dropLast_append_of_ne_nil xs hyne] at this
  rw [List.chain'_append] at hchain
  obtain ⟨hd, hhd⟩ := Option.isSome_iff_exists.mp (by
    rw [List.head?_isSome]
    exact hdne)
  have hlt : lst < hd := hchain.2.2 lst (by rw [hlst]; rfl) hd (by rw [hhd]; rfl)
  have hhd2 : ys.head? = some hd := by
    cases ys with
    | nil => exact absurd rfl hyne
    | cons a t =>
      cases t with
      | nil => simp at hys
      | cons b t2 =>
        have : (a :: b :: t2).dropLast = a :: (b :: t2).dropLast :=
          List.dropLast_cons_of_ne_nil (by simp)
        rw [this] at hhd
        simp only [List.head?_cons, Option.some.injEq] at hhd ⊢
        exact hhd
  intro y hy
  have hley : hd ≤ y := chain_le_head ys (AS_append_right xs ys h).1 hd hhd2 y hy
  omega

/-- Flattened frontier of a layer of nodes. -/
def flatFrontier (layer : List Node) : List Node := (layer.map frontier).flatten

/-- Induction principle consuming a node list two at a time, matching the
pairing loop of build_layer. -/
def pairRec {motive : List Node → Prop} (h0 : motive []) (h1 : ∀ x, motive [x])
    (h2 : ∀ x y rest, motive rest → motive (x :: y :: rest)) : ∀ l, motive l
  | [] => h0
  | [x] => h1 x
  | x :: y :: rest => h2 x y rest (pairRec h0 h1 h2 rest)

theorem buildLayer_cons2 (x y : Node) (rest : List Node) :
    buildLayer (x :: y :: rest) = hashBranch x y :: buildLayer rest := rfl

theorem frontier_hashBranch (l r : Node) :
    frontier (hashBranch l r) = frontier l ++ frontier r :=
  frontier_two_children _ _ _ _ l r

theorem good_hashBranch (l r : Node) (hl : Good l) (hr : Good r) :
    Good (hashBranch l r) :=
  Good.branch l r _ hl hr rfl

theorem buildLayer_flatFrontier : ∀ layer, flatFrontier (buildLayer layer) = flatFrontier layer := by
  intro layer
  induction layer using pairRec with
  | h0 => rfl
  | h1 x => rfl
  | h2 x y rest ih =>
    rw [buildLayer_cons2]
    show (frontier (hashBranch x y)) ++ flatFrontier (buildLayer rest)
      = frontier x ++ (frontier y ++ flatFrontier rest)
    rw [frontier_hashBranch, ih]
    show (frontier x ++ frontier y) ++ flatFrontier rest
      = frontier x ++ (frontier y ++ flatFrontier rest)
    rw [List.append_assoc]

theorem buildLayer_good : ∀ layer, (∀ t ∈ layer, Good t) → ∀ t ∈ buildLayer layer, Good t := by
  intro layer
  induction layer using pairRec with
  | h0 =>
    intro _ t ht
    rw [show buildLayer ([] : List Node) = [] from rfl] at ht
    simp at ht
  | h1 x => intro h t ht; exact h t ht
  | h2 x y rest ih =>
    intro h t ht
    rw [buildLayer_cons2] at ht
    rcases List.mem_cons.mp ht with rfl | ht
    · exact good_hashBranch x y (h x (by simp)) (h y (by simp))
    · exact ih (fun u hu => h u (by simp [hu])) t ht

theorem buildLayer_length : ∀ layer : List Node, (buildLayer layer).length
    = (layer.length + 1) / 2 := by
  intro layer
  induction layer using pairRec with
  | h0 => rfl
  | h1 x =>
    rw [show buildLayer [x] = [x] from rfl]
    simp only [List.length_cons, List.length_nil]
    try omega
  | h2 x y rest ih =>
    rw [buildLayer_cons2]
    simp only [List.length_cons, ih]
    omega

theorem rootGo_pattern (f : Nat) (x y : Node) (rest : List Node) :
    rootGo (f + 1) (x :: y :: rest) = rootGo f (buildLayer (x :: y :: rest)) := rfl

theorem rootGo_single (f : Nat) (x : Node) : rootGo f [x] = .ok x := by
  cases f <;> rfl

theorem rootGo_fuel : ∀ (fuel : Nat) (l : List Node), l.length ≤ fuel → l ≠ [] →
    rootGo fuel l = generateDataRoot l := by
  intro fuel
  induction fuel using Nat.strong_induction_on with
  | _ fuel ih =>
    intro l hl hne
    match l, hne with
    | [x], _ =>
      rw [rootGo_single]
      exact (rootGo_single 1 x).symm
    | x :: y :: rest, _ =>
      have hf : ∃ f, fuel = f + 1 := by
        cases fuel with
        | zero => simp at hl
        | succ f => exact ⟨f, rfl⟩
      obtain ⟨f, rfl⟩ := hf
      have hbl : (buildLayer (x :: y :: rest)).length = (rest.length + 3) / 2 := by
        rw [buildLayer_length]
        simp only [List.length_cons]
        try omega
      have hblne : buildLayer (x :: y :: rest) ≠ [] := by
        intro hE
        have := congrArg List.length hE
        rw [hbl] at this
        simp only [List.length_nil] at this
        omega
      have hlen : (x :: y :: rest).length = rest.length + 2 := by simp
      rw [rootGo_pattern]
      rw [ih f (Nat.lt_succ_self f) _ (by rw [hbl]; rw [hlen] at hl; omega) hblne]
      show _ = rootGo (x :: y :: rest).length (x :: y :: rest)
      rw [hlen, rootGo_pattern]
      rw [ih (rest.length + 1) (by rw [hlen] at hl; omega) _ (by rw [hbl]; omega) hblne]

theorem generateDataRoot_spec_aux : ∀ (n : Nat) (layer : List Node), layer.length ≤ n →
    layer ≠ [] → (∀ t ∈ layer, Good t) →
    ∃ root, generateDataRoot layer = .ok root ∧ Good root ∧
      frontier root = flatFrontier layer := by
  intro n
  induction n using Nat.strong_induction_on with
  | _ n ih =>
    intro layer hlen hne hg
    match layer, hne with
    | [x], _ =>
      refine ⟨x, by rw [generateDataRoot, rootGo_single], hg x (by simp), ?_⟩
      show frontier x = (frontier x ++ [] : List Node)
      rw [List.append_nil]
    | x :: y :: rest, _ =>
      have hbl : (buildLayer (x :: y :: rest)).length = (rest.length + 3) / 2 := by
        rw [buildLayer_length]
        simp only [List.length_cons]
        try omega
      have hblne : buildLayer (x :: y :: rest) ≠ [] := by
        intro hE
        have := congrArg List.length hE
        rw [hbl] at this
        simp only [List.length_nil] at this
        omega
      have hstep : generateDataRoot (x :: y :: rest)
          = generateDataRoot (buildLayer (x :: y :: rest)) := by
        show rootGo (x :: y :: rest).length (x :: y :: rest) = _
        rw [show (x :: y :: rest).length = (rest.length + 1) + 1 by simp, rootGo_pattern]
        exact rootGo_fuel (rest.length + 1) _ (by rw [hbl]; omega) hblne
      obtain ⟨root, h1, h2, h3⟩ := ih (buildLayer (x :: y :: rest)).length
        (by rw [hbl]; simp only [List.length_cons] at hlen; omega)
        (buildLayer (x :: y :: rest)) le_rfl hblne
        (buildLayer_good _ hg)
      exact ⟨root, by rw [hstep]; exact h1, h2, by rw [h3, buildLayer_flatFrontier]⟩

theorem generateDataRoot_spec (layer : List Node) (hne : layer ≠ [])
    (hg : ∀ t ∈ layer, Good t) :
    ∃ root, generateDataRoot layer = .ok root ∧ Good root ∧
      frontier root = flatFrontier layer :=
  generateDataRoot_spec_aux layer.length layer le_rfl hne hg

theorem toNoteVec_mod (x : Nat) : toNoteVec (x % M32) = toNoteVec x := by
  unfold toNoteVec
  rw [Nat.mod_mod_of_dvd x dvd_rfl]

theorem toNoteVec_of_lt (x : Nat) (h : x < M32) :
    toNoteVec x = List.replicate 28 0 ++ be32 x := by
  unfold toNoteVec
  rw [Nat.mod_eq_of_lt h]
  rfl

theorem beVal4_be32 (x : Nat) (h : x < M32) : beVal4 (be32 x) = x := by
  simp only [be32, beVal4, List.getD_cons_zero, List.getD_cons_succ]
  have hM : M32 = 4294967296 := rfl
  rw [hM] at h
  omega

theorem flatten96_length (recs : List (List Nat)) (h : ∀ rb ∈ recs, rb.length = 96) :
    recs.flatten.length = 96 * recs.length := by
  induction recs with
  | nil => rfl
  | cons rb rest ih =>
    simp only [List.flatten_cons, List.length_append, List.length_cons]
    rw [h rb (by simp), ih (fun u hu => h u (by simp [hu]))]
    ring

theorem chunksOf96_flatten (recs : List (List Nat)) (h : ∀ rb ∈ recs, rb.length = 96) :
    chunksOf 96 recs.flatten = recs := by
  induction recs with
  | nil => rfl
  | cons rb rest ih =>
    have hrb : rb.length = 96 := h rb (by simp)
    have hne : (rb :: rest).flatten ≠ [] := by
      intro hE
      have := congrArg List.length hE
      simp only [List.flatten_cons, List.length_append, List.length_nil, hrb] at this
      omega
    have htk : (rb ++ rest.flatten).take 96 = rb := by
      rw [← hrb]
      exact List.take_left rb rest.flatten
    have hdp : (rb ++ rest.flatten).drop 96 = rest.flatten := by
      rw [← hrb]
      exact List.drop_left rb rest.flatten
    rw [List.flatten_cons, chunksOf_cons 96 _ (by omega) (by rw [← List.flatten_cons]; exact hne)]
    rw [htk, hdp, ih (fun u hu => h u (by simp [hu]))]

theorem branchRecord_parse (lid rid : List Nat) (mn : Nat)
    (h1 : lid.length = 32) (h2 : rid.length = 32) :
    parseBranchProof (lid ++ rid ++ toNoteVec mn)
      = some ⟨lid, rid, List.replicate 24 0, List.replicate 4 0 ++ be32 (mn % M32)⟩ := by
  have hnl : (toNoteVec mn).length = 32 := toNoteVec_length mn
  have hlen : (lid ++ rid ++ toNoteVec mn).length = 96 := by
    simp only [List.length_append, h1, h2, hnl]
  have hassoc : lid ++ rid ++ toNoteVec mn = (lid ++ rid) ++ toNoteVec mn := by
    rw [List.append_assoc]
  have h64 : (lid ++ rid).length = 64 := by simp [h1, h2]
  have hTN : toNoteVec mn = List.replicate 28 0 ++ be32 (mn % M32) := rfl
  have e1 : (lid ++ rid ++ toNoteVec mn).take 32 = lid := by
    rw [List.take_append_of_le_length (by rw [List.length_append, h1, h2]; omega), ← h1]
    exact List.take_left lid rid
  have e2 : ((lid ++ rid ++ toNoteVec mn).drop 32).take 32 = rid := by
    rw [List.drop_append_of_le_length (by rw [List.length_append, h1, h2]; omega)]
    rw [show (lid ++ rid).drop 32 = rid by rw [← h1]; exact List.drop_left lid rid]
    rw [← h2]
    exact List.take_left rid (toNoteVec mn)
  have hd64 : (lid ++ rid ++ toNoteVec mn).drop 64 = toNoteVec mn := by
    rw [← h64]
    exact List.drop_left (lid ++ rid) (toNoteVec mn)
  have e3 : ((lid ++ rid ++ toNoteVec mn).drop 64).take 24 = List.replicate 24 0 := by
    rw [hd64, hTN, List.take_append_of_le_length (by simp), List.take_replicate]
    norm_num
  have e4 : (lid ++ rid ++ toNoteVec mn).drop 88 = List.replicate 4 0 ++ be32 (mn % M32) := by
    rw [show (88 : Nat) = (lid ++ rid).length + 24 by rw [h64], List.drop_append, hTN,
      List.drop_append_of_le_length (by simp), List.drop_replicate]
  unfold parseBranchProof
  rw [if_pos hlen, e1, e2, e3, e4]

theorem branchRecord_offsetVal (lid rid : List Nat) (v : Nat) (hv : v < M32) :
    (BranchProof.mk lid rid (List.replicate 24 0)
      (List.replicate 4 0 ++ be32 v)).offsetVal = v := by
  unfold BranchProof.offsetVal
  simp only
  rw [show (List.replicate 4 (0 : Nat) ++ be32 v).drop 4 = be32 v by
    rw [show (4 : Nat) = (List.replicate 4 (0 : Nat)).length from rfl]
    exact List.drop_left (List.replicate 4 0) (be32 v)]
  exact beVal4_be32 v hv

theorem parseBranchProofs_cons (rb : List Nat) (rest : List (List Nat)) (bp : BranchProof)
    (bps : List BranchProof) (h1 : parseBranchProof rb = some bp)
    (h2 : parseBranchProofs rest = some bps) :
    parseBranchProofs (rb :: rest) = some (bp :: bps) := by
  unfold parseBranchProofs
  rw [h1, h2]

theorem parseLeafProof_split (dh note2 : List Nat) (hdh : dh.length = 32)
    (hn : note2.length = 32) :
    parseLeafProof (dh ++ note2) = some ⟨dh, note2.take 24, note2.drop 24⟩ := by
  have hlen : (dh ++ note2).length = 64 := by simp [hdh, hn]
  unfold parseLeafProof
  rw [if_pos hlen]
  congr 1
  congr 1
  · rw [← hdh, List.take_left]
  · rw [← hdh, List.drop_left]
  · rw [show (56 : Nat) = dh.length + 24 by rw [hdh], List.drop_append]

/-- When a proof buffer consists of whole 96-byte branch records, a 32-byte
data hash and any 32-byte tail, and every branch record replays, the leaf
stage of validate_chunk cannot fail: its parsed data_hash equals the node
data_hash, so the conjunction of negated checks is false. -/
theorem validateChunk_ok_of_path (root_id : List Nat) (x : Node) (dh : List Nat)
    (recs : List (List Nat)) (bps : List BranchProof) (note2 : List Nat) (off : Nat)
    (hdh : x.data_hash = some dh) (hdhl : dh.length = 32) (hn2 : note2.length = 32)
    (hrl : ∀ rb ∈ recs, rb.length = 96)
    (hparse : parseBranchProofs recs = some bps)
    (hloop : ∃ fin, validateBranches x.max_byte_range root_id bps = some fin) :
    validateChunk root_id x ⟨off, recs.flatten ++ (dh ++ note2)⟩ = .ok () := by
  obtain ⟨fin, hfin⟩ := hloop
  have hfl : recs.flatten.length = 96 * recs.length := flatten96_length recs hrl
  have htail : (dh ++ note2).length = 64 := by simp [hdhl, hn2]
  have hc1 : HASH_SIZE + NOTE_SIZE = 64 := rfl
  have hc2 : HASH_SIZE * 2 + NOTE_SIZE = 96 := rfl
  have hlen : (recs.flatten ++ (dh ++ note2)).length = 96 * recs.length + 64 := by
    simp only [List.length_append, hfl, htail]
  have hsub : (recs.flatten ++ (dh ++ note2)).length - 64 = recs.flatten.length := by
    omega
  show (match x.data_hash with
    | none => PResult.panic
    | some data_hash =>
      if (recs.flatten ++ (dh ++ note2)).length < HASH_SIZE + NOTE_SIZE then PResult.panic
      else
        match parseBranchProofs (chunksOf (HASH_SIZE * 2 + NOTE_SIZE)
            ((recs.flatten ++ (dh ++ note2)).take
              ((recs.flatten ++ (dh ++ note2)).length - (HASH_SIZE + NOTE_SIZE)))) with
        | none => PResult.panic
        | some branch_proofs =>
          match parseLeafProof ((recs.flatten ++ (dh ++ note2)).drop
              ((recs.flatten ++ (dh ++ note2)).length - (HASH_SIZE + NOTE_SIZE))) with
          | none => PResult.err Error.InvalidProof
          | some leaf_proof =>
            match validateBranches x.max_byte_range root_id branch_proofs with
            | none => PResult.err Error.InvalidProof
            | some rid =>
              if hashAllSha256 [data_hash, toNoteVec x.max_byte_range] ≠ rid ∧
                  data_hash ≠ leaf_proof.data_hash then PResult.err Error.InvalidProof
              else PResult.ok ()) = PResult.ok ()
  rw [hdh, hc1, hc2, hsub]
  rw [show (recs.flatten ++ (dh ++ note2)).take recs.flatten.length = recs.flatten from
    List.take_left recs.flatten (dh ++ note2)]
  rw [show (recs.flatten ++ (dh ++ note2)).drop recs.flatten.length = dh ++ note2 from
    List.drop_left recs.flatten (dh ++ note2)]
  rw [chunksOf96_flatten recs hrl, hparse, parseLeafProof_split dh note2 hdhl hn2]
  simp only []
  rw [hfin]
  simp only []
  rw [if_neg (show ¬((recs.flatten ++ (dh ++ note2)).length < 64) by rw [hlen]; omega)]
  rw [if_neg (fun hcon => hcon.2 rfl)]

theorem resolveProofs_leaf (id dh : List Nat) (mn mx po : Nat) (pre : List Nat) :
    resolveProofs ⟨id, some dh, mn, mx, none, none⟩ (some ⟨po, pre⟩)
      = .ok [⟨mx - 1, pre ++ dh ++ toNoteVec mx⟩] := by
  simp [resolveProofs]

theorem resolveProofs_branch (id : List Nat) (mn mx po : Nat) (l r : Node) (pre : List Nat)
    (a b : List Proof)
    (ha : resolveProofs l (some ⟨po, pre ++ (l.id ++ (r.id ++ toNoteVec mn))⟩) = .ok a)
    (hb : resolveProofs r (some ⟨po, pre ++ (l.id ++ (r.id ++ toNoteVec mn))⟩) = .ok b) :
    resolveProofs ⟨id, none, mn, mx, some l, some r⟩ (some ⟨po, pre⟩) = .ok (a ++ b) := by
  simp [resolveProofs, ha, hb]

theorem validateBranches_nil (mx : Nat) (rid : List Nat) :
    validateBranches mx rid [] = some rid := rfl

theorem validateBranches_cons (mx : Nat) (rid : List Nat) (bp : BranchProof)
    (rest : List BranchProof) :
    validateBranches mx rid (bp :: rest)
      = if hashAllSha256 [bp.left_id, bp.right_id, toNoteVec bp.offsetVal] = rid then
          validateBranches mx (if mx > bp.offsetVal then bp.right_id else bp.left_id) rest
        else none := rfl

theorem fmax_two_children (id : List Nat) (dh : Option (List Nat)) (mn mx : Nat)
    (l r : Node) :
    fmax ⟨id, dh, mn, mx, some l, some r⟩ = fmax l ++ fmax r := by
  rw [fmax, frontier_two_children, List.map_append]
  rfl

theorem fmax_leaf_node (id : List Nat) (dh : Option (List Nat)) (mn mx : Nat) :
    fmax ⟨id, dh, mn, mx, none, none⟩ = [mx] := by
  rw [fmax, frontier_leaf_node]
  rfl

theorem fmax_length (t : Node) : (fmax t).length = (frontier t).length :=
  List.length_map _ _

theorem validateBranches_record (mxv : Nat) (start lid rid : List Nat) (mn : Nat)
    (hmn : mn < M32) (rest : List BranchProof) :
    validateBranches mxv start
        (⟨lid, rid, List.replicate 24 0, List.replicate 4 0 ++ be32 (mn % M32)⟩ :: rest)
      = if hashAllSha256 [lid, rid, toNoteVec mn] = start then
          validateBranches mxv (if mxv > mn then rid else lid) rest
        else none := by
  rw [validateBranches_cons]
  have hoff : (⟨lid, rid, List.replicate 24 0, List.replicate 4 0 ++ be32 (mn % M32)⟩
      : BranchProof).offsetVal = mn := by
    rw [branchRecord_offsetVal lid rid (mn % M32) (Nat.mod_lt mn (by decide))]
    exact Nat.mod_eq_of_lt hmn
  rw [hoff]

/-- Central invariant: on a well-formed tree whose frontier maxima are
almost-strictly ascending and fit a u32, resolve_proofs succeeds and yields,
for every leaf, whole 96-byte branch records that deserialize and replay
through the branch loop of validate_chunk, starting from the tree id. -/
theorem resolveValidate (t : Node) (hg : Good t) :
    AS (fmax t) → (∀ m ∈ fmax t, m < M32) →
    ∀ (po : Nat) (pre : List Nat),
      ∃ ps : List Proof, resolveProofs t (some ⟨po, pre⟩) = .ok ps ∧
        ps.length = (frontier t).length ∧
        ∀ (i : Nat) (x : Node), (frontier t)[i]? = some x →
          ∃ (dh : List Nat) (recs : List (List Nat)) (bps : List BranchProof),
            x.data_hash = some dh ∧ dh.length = 32 ∧
            ps[i]? = some ⟨x.max_byte_range - 1,
              pre ++ (recs.flatten ++ (dh ++ toNoteVec x.max_byte_range))⟩ ∧
            (∀ rb ∈ recs, rb.length = 96) ∧
            parseBranchProofs recs = some bps ∧
            ∀ start, (start = t.id ∨ (frontier t).length = 1) →
              ∃ fin, validateBranches x.max_byte_range start bps = some fin := by
  induction hg with
  | leaf id dh mn mx hid hdl =>
    intro has hb po pre
    refine ⟨[⟨mx - 1, pre ++ dh ++ toNoteVec mx⟩], resolveProofs_leaf id dh mn mx po pre,
      by simp [frontier_leaf_node], ?_⟩
    intro i x hx
    rw [frontier_leaf_node] at hx
    cases i with
    | zero =>
      have hx2 : x = ⟨id, some dh, mn, mx, none, none⟩ := by
        simp only [List.getElem?_cons_zero, Option.some.injEq] at hx
        exact hx.symm
      subst hx2
      refine ⟨dh, [], [], rfl, hdl, ?_, by simp, rfl, fun start _ => ⟨start, rfl⟩⟩
      simp [List.append_assoc]
    | succ n =>
      rw [List.getElem?_cons_succ] at hx
      simp at hx
  | branch l r id hgl hgr hid ihl ihr =>
    intro has hb po pre
    rw [fmax_two_children] at has hb
    have hasl := AS_append_left _ _ has
    have hasr := AS_append_right _ _ has
    have hbl : ∀ m ∈ fmax l, m < M32 := fun m hm => hb m (List.mem_append_left _ hm)
    have hbr : ∀ m ∈ fmax r, m < M32 := fun m hm => hb m (List.mem_append_right _ hm)
    obtain ⟨psl, hresl, hlenl, hmainl⟩ :=
      ihl hasl hbl po (pre ++ (l.id ++ (r.id ++ toNoteVec l.max_byte_range)))
    obtain ⟨psr, hresr, hlenr, hmainr⟩ :=
      ihr hasr hbr po (pre ++ (l.id ++ (r.id ++ toNoteVec l.max_byte_range)))
    refine ⟨psl ++ psr, resolveProofs_branch id _ _ po l r pre psl psr hresl hresr,
      by rw [List.length_append, hlenl, hlenr, frontier_two_children, List.length_append], ?_⟩
    intro i x hx
    rw [frontier_two_children] at hx
    have hlmax : (fmax l).getLast? = some l.max_byte_range := hgl.fmax_getLast
    have hlmem : l.max_byte_range ∈ fmax l := List.mem_of_mem_getLast? hlmax
    have hlM : l.max_byte_range < M32 := hbl _ hlmem
    have hlid : l.id.length = 32 := hgl.id_len
    have hrid : r.id.length = 32 := hgr.id_len
    have hrec0 := branchRecord_parse l.id r.id l.max_byte_range hlid hrid
    have hflpos : 0 < (frontier l).length := List.length_pos.mpr hgl.frontier_ne
    have hfrpos : 0 < (frontier r).length := List.length_pos.mpr hgr.frontier_ne
    have hnot1 : ¬ (frontier (⟨id, none, l.max_byte_range, r.max_byte_range,
        some l, some r⟩ : Node)).length = 1 := by
      rw [frontier_two_children, List.length_append]
      omega
    by_cases hi : i < (frontier l).length
    · rw [List.getElem?_append_left hi] at hx
      obtain ⟨dh, recs, bps, hdh, hdhl, hpsi, hrl, hparse, hloop⟩ := hmainl i x hx
      refine ⟨dh, (l.id ++ r.id ++ toNoteVec l.max_byte_range) :: recs,
        ⟨l.id, r.id, List.replicate 24 0,
          List.replicate 4 0 ++ be32 (l.max_byte_range % M32)⟩ :: bps,
        hdh, hdhl, ?_, ?_, ?_, ?_⟩
      · rw [List.getElem?_append_left (by rw [hlenl]; exact hi), hpsi]
        simp [List.append_assoc]
      · intro rb hrb
        rcases List.mem_cons.mp hrb with rfl | hrb
        · simp [List.length_append, hlid, hrid, toNoteVec_length]
        · exact hrl rb hrb
      · exact parseBranchProofs_cons _ _ _ _ hrec0 hparse
      · intro start hstart
        have hstart2 : start = id := by
          rcases hstart with h | h
          · exact h
          · exact absurd h hnot1
        subst hstart2
        rw [validateBranches_record _ _ _ _ _ hlM bps, if_pos hid.symm]
        have hxm : x.max_byte_range ∈ fmax l :=
          List.mem_map_of_mem _ (List.getElem?_mem hx)
        have hle : x.max_byte_range ≤ l.max_byte_range :=
          chain_le_getLast (fmax l) hasl.1 _ hxm _ hlmax
        rw [if_neg (by omega)]
        exact hloop l.id (Or.inl rfl)
    · push_neg at hi
      rw [List.getElem?_append_right hi] at hx
      obtain ⟨dh, recs, bps, hdh, hdhl, hpsi, hrl, hparse, hloop⟩ :=
        hmainr (i - (frontier l).length) x hx
      refine ⟨dh, (l.id ++ r.id ++ toNoteVec l.max_byte_range) :: recs,
        ⟨l.id, r.id, List.replicate 24 0,
          List.replicate 4 0 ++ be32 (l.max_byte_range % M32)⟩ :: bps,
        hdh, hdhl, ?_, ?_, ?_, ?_⟩
      · rw [List.getElem?_append_right (by rw [hlenl]; exact hi), hlenl, hpsi]
        simp [List.append_assoc]
      · intro rb hrb
        rcases List.mem_cons.mp hrb with rfl | hrb
        · simp [List.length_append, hlid, hrid, toNoteVec_length]
        · exact hrl rb hrb
      · exact parseBranchProofs_cons _ _ _ _ hrec0 hparse
      · intro start hstart
        have hstart2 : start = id := by
          rcases hstart with h | h
          · exact h
          · exact absurd h hnot1
        subst hstart2
        rw [validateBranches_record _ _ _ _ _ hlM bps, if_pos hid.symm]
        by_cases hfr1 : (frontier r).length = 1
        · exact hloop _ (Or.inr hfr1)
        · have hfrge : 2 ≤ (fmax r).length := by rw [fmax_length]; omega
          have hxm : x.max_byte_range ∈ fmax r :=
            List.mem_map_of_mem _ (List.getElem?_mem hx)
          have hgt : l.max_byte_range < x.max_byte_range :=
            AS_boundary (fmax l) (fmax r) has _ hlmax hfrge _ hxm
          rw [if_pos hgt]
          exact hloop r.id (Or.inl rfl)

theorem leavesGo_good (cs : List (List Nat)) :
    ∀ s, ∀ t ∈ leavesGo s cs, Good t := by
  induction cs with
  | nil => intro s t ht; simp [leavesGo] at ht
  | cons c rest ih =>
    intro s t ht
    rcases List.mem_cons.mp ht with rfl | ht
    · exact Good.leaf _ _ _ _ rfl (sha256_length c)
    · exact ih (s + c.length) t ht

theorem frontier_mkLeaf (c : List Nat) (p : Nat × Nat) :
    frontier (mkLeaf c p) = [mkLeaf c p] := rfl

theorem flatFrontier_cons (x : Node) (l : List Node) :
    flatFrontier (x :: l) = frontier x ++ flatFrontier l := by
  simp [flatFrontier]

theorem flatFrontier_leavesGo (cs : List (List Nat)) :
    ∀ s, flatFrontier (leavesGo s cs) = leavesGo s cs := by
  induction cs with
  | nil => intro s; rfl
  | cons c rest ih =>
    intro s
    rw [leavesGo, flatFrontier_cons, frontier_mkLeaf, ih (s + c.length)]
    rfl

theorem leavesGo_maxes (cs : List (List Nat)) (s : Nat) :
    (leavesGo s cs).map Node.max_byte_range
      = (rangesFrom s (cs.map List.length)).map Prod.snd := by
  have h := congrArg (List.map Prod.snd) (leavesGo_ranges cs s)
  rw [List.map_map] at h
  exact h

theorem chainle_ranges (lens : List Nat) :
    ∀ s, ((rangesFrom s lens).map Prod.snd).Chain' (· ≤ ·) := by
  induction lens with
  | nil => intro s; simp [rangesFrom]
  | cons n rest ih =>
    intro s
    simp only [rangesFrom, List.map_cons]
    rw [List.chain'_cons']
    refine ⟨?_, ih (s + n)⟩
    intro b hb
    cases rest with
    | nil => simp [rangesFrom] at hb
    | cons m r2 =>
      simp only [rangesFrom, List.map_cons, List.head?_cons, Option.mem_def,
        Option.some.injEq] at hb
      omega

theorem chainlt_ranges (lens : List Nat) :
    ∀ s, (∀ n ∈ lens, n ≠ 0) → ((rangesFrom s lens).map Prod.snd).Chain' (· < ·) := by
  induction lens with
  | nil => intro s _; simp [rangesFrom]
  | cons n rest ih =>
    intro s hnz
    simp only [rangesFrom, List.map_cons]
    rw [List.chain'_cons']
    refine ⟨?_, ih (s + n) (fun m hm => hnz m (List.mem_cons_of_mem n hm))⟩
    intro b hb
    cases rest with
    | nil => simp [rangesFrom] at hb
    | cons m r2 =>
      have hm : m ≠ 0 := hnz m (by simp)
      simp only [rangesFrom, List.map_cons, List.head?_cons, Option.mem_def,
        Option.some.injEq] at hb
      omega

theorem AS_leaf_maxes (lens : List Nat) (s : Nat)
    (h : ∀ n ∈ lens.dropLast, n ≠ 0) :
    AS ((rangesFrom s lens).map Prod.snd) := by
  constructor
  · exact chainle_ranges lens s
  · rw [← List.map_dropLast, rangesFrom_dropLast]
    exact chainlt_ranges lens.dropLast s h

theorem rangesFrom_snd_le (lens : List Nat) :
    ∀ s, ∀ r ∈ rangesFrom s lens, r.2 ≤ s + lens.sum := by
  induction lens with
  | nil => intro s r hr; simp [rangesFrom] at hr
  | cons n rest ih =>
    intro s r hr
    simp only [rangesFrom, List.mem_cons] at hr
    rcases hr with rfl | hr
    · simp only [List.sum_cons]; omega
    · have := ih (s + n) r hr
      simp only [List.sum_cons]
      omega

theorem resolveProofs_none (t : Node) :
    resolveProofs t none = resolveProofs t (some ⟨0, []⟩) := by
  rcases t with ⟨id, dh, mn, mx, lc, rc⟩
  cases dh <;> cases lc <;> cases rc <;> simp [resolveProofs]

theorem flipBitAt_length (i b : Nat) (l : List Nat) : (flipBitAt i b l).length = l.length := by
  unfold flipBitAt
  rw [List.length_set]

theorem flipBitAt_append_right (l1 l2 : List Nat) (i b : Nat) (h : l1.length ≤ i) :
    flipBitAt i b (l1 ++ l2) = l1 ++ flipBitAt (i - l1.length) b l2 := by
  unfold flipBitAt
  rw [List.getD_append_right _ _ _ _ h, List.set_append_right _ _ h]

/-- Shared round-trip skeleton: on a successful pipeline run, every proof at
a leaf position is the serialized branch path of that leaf followed by its
data hash and note, with the branch records replaying to some expected id. -/
theorem roundtrip_path_spec (data : List Nat) (hlen : data.length < 2 ^ 32)
    (leaves : List Node) (root : Node) (proofs : List Proof)
    (hl : generateLeaves data = .ok leaves)
    (hr : generateDataRoot leaves = .ok root)
    (hp : resolveProofs root none = .ok proofs) :
    proofs.length = leaves.length ∧
    ∀ (i : Nat) (x : Node) (p : Proof), leaves[i]? = some x → proofs[i]? = some p →
      ∃ (dh : List Nat) (recs : List (List Nat)) (bps : List BranchProof),
        x.data_hash = some dh ∧ dh.length = 32 ∧
        p = ⟨x.max_byte_range - 1,
          recs.flatten ++ (dh ++ toNoteVec x.max_byte_range)⟩ ∧
        (∀ rb ∈ recs, rb.length = 96) ∧
        parseBranchProofs recs = some bps ∧
        ∃ fin, validateBranches x.max_byte_range root.id bps = some fin := by
  have hdne : data ≠ [] := by
    intro hE
    subst hE
    rw [generateLeaves_nil] at hl
    exact PResult.noConfusion hl
  obtain ⟨cs2, hok, hcs2ne, hflat, hdropne, hmaxle⟩ := finalChunks_spec data hdne
  rw [hl] at hok
  injection hok with hleq
  subst hleq
  rw [mkLeaves_eq] at hr ⊢
  have hgood := leavesGo_good cs2 0
  have hne2 : leavesGo 0 cs2 ≠ [] := by
    intro hE
    have := congrArg List.length hE
    rw [leavesGo_length] at this
    simp only [List.length_nil] at this
    exact hcs2ne (List.length_eq_zero.mp this)
  obtain ⟨root2, hroot2, hgroot, hfront0⟩ := generateDataRoot_spec (leavesGo 0 cs2) hne2 hgood
  rw [hr] at hroot2
  injection hroot2 with heq
  subst heq
  have hfront : frontier root = leavesGo 0 cs2 := by
    rw [hfront0, flatFrontier_leavesGo]
  have hsum : (cs2.map List.length).sum = data.length := by
    rw [← List.length_flatten, hflat]
  have hfmax : fmax root = (rangesFrom 0 (cs2.map List.length)).map Prod.snd := by
    rw [fmax, hfront, leavesGo_maxes]
  have hAS : AS (fmax root) := by
    rw [hfmax]
    refine AS_leaf_maxes _ 0 ?_
    intro n hn
    rw [← List.map_dropLast] at hn
    obtain ⟨c, hc, hcn⟩ := List.mem_map.mp hn
    subst hcn
    intro hczero
    exact hdropne c hc (List.length_eq_zero.mp hczero)
  have hbound : ∀ m ∈ fmax root, m < M32 := by
    intro m hm
    rw [hfmax] at hm
    obtain ⟨r, hrm, hre⟩ := List.mem_map.mp hm
    subst hre
    have h1 := rangesFrom_snd_le (cs2.map List.length) 0 r hrm
    have hM : M32 = 2 ^ 32 := by norm_num [M32]
    omega
  obtain ⟨ps, hps, hpslen, hmain⟩ := resolveValidate root hgroot hAS hbound 0 []
  rw [resolveProofs_none, hps] at hp
  injection hp with hpeq
  subst hpeq
  constructor
  · rw [hpslen, hfront]
  · intro i x p hx hpp
    rw [← hfront] at hx
    obtain ⟨dh, recs, bps, hdh, hdhl, hpsi, hrl, hparse, hloop⟩ := hmain i x hx
    rw [List.nil_append] at hpsi
    rw [hpp] at hpsi
    injection hpsi with hpe
    exact ⟨dh, recs, bps, hdh, hdhl, hpe, hrl, hparse, hloop root.id (Or.inl rfl)⟩

/-- C4: for every buffer (whose length fits the u32 note wire format), each
leaf returned by generate_leaves together with the proof at the same position
returned by resolve_proofs on the generate_data_root tree validates
successfully against the root id: validate_chunk(root.id, leaf, proof)
returns Ok. -/
theorem roundtrip_validates (data : List Nat) (hlen : data.length < 2 ^ 32)
    (leaves : List Node) (root : Node) (proofs : List Proof)
    (hl : generateLeaves data = .ok leaves)
    (hr : generateDataRoot leaves = .ok root)
    (hp : resolveProofs root none = .ok proofs) :
    proofs.length = leaves.length ∧
    ∀ (i : Nat) (x : Node) (p : Proof), leaves[i]? = some x → proofs[i]? = some p →
      validateChunk root.id x p = .ok () := by
  obtain ⟨hlen2, hmain⟩ := roundtrip_path_spec data hlen leaves root proofs hl hr hp
  refine ⟨hlen2, ?_⟩
  intro i x p hx hpp
  obtain ⟨dh, recs, bps, hdh, hdhl, hpe, hrl, hparse, hloop⟩ := hmain i x p hx hpp
  rw [hpe]
  exact validateChunk_ok_of_path root.id x dh recs bps (toNoteVec x.max_byte_range)
    (x.max_byte_range - 1) hdh hdhl (toNoteVec_length _) hrl hparse hloop

theorem roundtrip_validates_witness :
    ([0] : List Nat).length < 2 ^ 32 ∧
    generateLeaves [0] = .ok [mkLeaf [0] (0, 1)] ∧
    generateDataRoot [mkLeaf [0] (0, 1)] = .ok (mkLeaf [0] (0, 1)) ∧
    resolveProofs (mkLeaf [0] (0, 1)) none
      = .ok [⟨0, [] ++ sha256 [0] ++ toNoteVec 1⟩] ∧
    validateChunk (mkLeaf [0] (0, 1)).id (mkLeaf [0] (0, 1))
      ⟨0, [] ++ sha256 [0] ++ toNoteVec 1⟩ = .ok () := by
  have h1 : generateLeaves [0] = .ok [mkLeaf [0] (0, 1)] := rfl
  have h2 : generateDataRoot [mkLeaf [0] (0, 1)] = .ok (mkLeaf [0] (0, 1)) := rfl
  have h3 : resolveProofs (mkLeaf [0] (0, 1)) none
      = .ok [⟨0, [] ++ sha256 [0] ++ toNoteVec 1⟩] := by
    rw [resolveProofs_none]
    exact resolveProofs_leaf (hashAllSha256 [sha256 [0], toNoteVec 1]) (sha256 [0]) 0 1 0 []
  refine ⟨by decide, h1, h2, h3, ?_⟩
  exact (roundtrip_validates [0] (by decide) [mkLeaf [0] (0, 1)] (mkLeaf [0] (0, 1))
    [⟨0, [] ++ sha256 [0] ++ toNoteVec 1⟩] h1 h2 h3).2 0 (mkLeaf [0] (0, 1))
    ⟨0, [] ++ sha256 [0] ++ toNoteVec 1⟩ rfl rfl

/-- resolve_proofs succeeds on every well-formed tree, one proof per leaf. -/
theorem resolveProofs_ok_of_good (t : Node) (hg : Good t) :
    ∀ p : Proof, ∃ ps, resolveProofs t (some p) = .ok ps ∧ ps.length = (frontier t).length := by
  induction hg with
  | leaf id dh mn mx hid hdl =>
    intro p
    exact ⟨_, resolveProofs_leaf id dh mn mx p.offset p.proof, by simp [frontier_leaf_node]⟩
  | branch l r id hgl hgr hid ihl ihr =>
    intro p
    obtain ⟨a, ha, hla⟩ :=
      ihl ⟨p.offset, p.proof ++ (l.id ++ (r.id ++ toNoteVec l.max_byte_range))⟩
    obtain ⟨b, hb, hlb⟩ :=
      ihr ⟨p.offset, p.proof ++ (l.id ++ (r.id ++ toNoteVec l.max_byte_range))⟩
    refine ⟨a ++ b, ?_, ?_⟩
    · exact resolveProofs_branch id _ _ p.offset l r p.proof a b ha hb
    · rw [List.length_append, hla, hlb, frontier_two_children, List.length_append]

theorem sum_dropLast_add_getLast (l : List Nat) (x : Nat) (h : l.getLast? = some x) :
    l.dropLast.sum + x = l.sum := by
  induction l with
  | nil => simp at h
  | cons a t ih =>
    cases t with
    | nil =>
      simp only [List.getLast?_singleton, Option.some.injEq] at h
      subst h
      simp
    | cons b t2 =>
      rw [List.getLast?_cons_cons] at h
      have h2 := ih h
      have h3 : (a :: b :: t2).dropLast = a :: (b :: t2).dropLast := rfl
      rw [h3, List.sum_cons, List.sum_cons]
      omega

theorem merklize_eq (data : List Nat) (chunks : List Node) (root : Node) (ps : List Proof)
    (lastChunk : Node)
    (hl : generateLeaves data = .ok chunks) (hr : generateDataRoot chunks = .ok root)
    (hp : resolveProofs root none = .ok ps) (hlast : chunks.getLast? = some lastChunk) :
    merklize data = .ok { Transaction.default with
      format := 2, data_size := data.length, data := data, data_root := root.id,
      chunks := if lastChunk.max_byte_range = lastChunk.min_byte_range
                then chunks.dropLast else chunks,
      proofs := if lastChunk.max_byte_range = lastChunk.min_byte_range
                then ps.dropLast else ps } := by
  rw [merklize, hl]
  simp only []
  rw [hr]
  simp only []
  rw [hp]
  simp only []
  rw [hlast]



/-- C10: for every non-empty input buffer, the transaction built by merklize
has equally long chunk and proof lists, every remaining chunk has a
positive-length byte range (the zero-length trailing leaf, when present, is
dropped from both lists), the chunk ranges partition [0, data.length) in
order, and data_root is the id of the root built over all generated leaves
including any dropped zero-length trailing leaf. -/
theorem merklize_invariants (data : List Nat) (hne : data ≠ []) :
    ∃ (tx : Transaction) (leaves : List Node) (root : Node),
      generateLeaves data = .ok leaves ∧
      generateDataRoot leaves = .ok root ∧
      merklize data = .ok tx ∧
      tx.data_root = root.id ∧
      tx.chunks.length = tx.proofs.length ∧
      (∀ nd ∈ tx.chunks, nd.min_byte_range < nd.max_byte_range) ∧
      (tx.chunks.map fun nd => (nd.min_byte_range, nd.max_byte_range)).Chain'
        (fun a b => a.2 = b.1) ∧
      (∃ r0, (tx.chunks.map fun nd => (nd.min_byte_range, nd.max_byte_range)).head?
          = some r0 ∧ r0.1 = 0) ∧
      (∃ rl, (tx.chunks.map fun nd => (nd.min_byte_range, nd.max_byte_range)).getLast?
          = some rl ∧ rl.2 = data.length) := by
  obtain ⟨cs2, hok, hcs2ne, hflat, hdropne, hmaxle⟩ := finalChunks_spec data hne
  rw [mkLeaves_eq] at hok
  have hgood := leavesGo_good cs2 0
  have hne2 : leavesGo 0 cs2 ≠ [] := by
    intro hE
    have := congrArg List.length hE
    rw [leavesGo_length] at this
    simp only [List.length_nil] at this
    exact hcs2ne (List.length_eq_zero.mp this)
  obtain ⟨root, hroot, hgroot, hfront0⟩ := generateDataRoot_spec (leavesGo 0 cs2) hne2 hgood
  have hfront : frontier root = leavesGo 0 cs2 := by
    rw [hfront0, flatFrontier_leavesGo]
  obtain ⟨ps, hps0, hpslen⟩ := resolveProofs_ok_of_good root hgroot ⟨0, []⟩
  have hps : resolveProofs root none = .ok ps := by
    rw [resolveProofs_none]
    exact hps0
  obtain ⟨lastChunk, hlast⟩ :=
    Option.isSome_iff_exists.mp (List.getLast?_isSome.mpr hne2)
  have htx := merklize_eq data (leavesGo 0 cs2) root ps lastChunk hok hroot hps hlast
  have hranges : (leavesGo 0 cs2).map (fun nd => (nd.min_byte_range, nd.max_byte_range))
      = rangesFrom 0 (cs2.map List.length) := leavesGo_ranges cs2 0
  have hsum : (cs2.map List.length).sum = data.length := by
    rw [← List.length_flatten, hflat]
  have hLpos : 0 < data.length := List.length_pos.mpr hne
  have hchlen : (leavesGo 0 cs2).length = ps.length := by
    rw [hpslen, hfront]
  have hdlpos : ∀ nd ∈ (leavesGo 0 cs2).dropLast,
      nd.min_byte_range < nd.max_byte_range := by
    intro nd hnd
    have h1 : (nd.min_byte_range, nd.max_byte_range)
        ∈ ((leavesGo 0 cs2).dropLast).map (fun nd => (nd.min_byte_range, nd.max_byte_range)) :=
      List.mem_map_of_mem _ hnd
    rw [List.map_dropLast, hranges, rangesFrom_dropLast] at h1
    obtain ⟨hle, hmem⟩ := rangesFrom_mem _ 0 _ h1
    rw [← List.map_dropLast] at hmem
    obtain ⟨c, hc, hcl⟩ := List.mem_map.mp hmem
    have hcne : c ≠ [] := hdropne c hc
    have : c.length ≠ 0 := fun hz => hcne (List.length_eq_zero.mp hz)
    simp only at hle hcl
    omega
  by_cases hdz : lastChunk.max_byte_range = lastChunk.min_byte_range
  · -- zero-length trailing chunk dropped from both lists
    rw [if_pos hdz, if_pos hdz] at htx
    refine ⟨_, leavesGo 0 cs2, root, hok, hroot, htx, rfl, ?_, ?_, ?_, ?_, ?_⟩
    · show ((leavesGo 0 cs2).dropLast).length = ps.dropLast.length
      rw [List.length_dropLast, List.length_dropLast, hchlen]
    · exact fun nd hnd => hdlpos nd hnd
    all_goals {
      have hlastlen : (cs2.map List.length).getLast? = some 0 := by
        have h1 := leavesGo_sizes cs2 0
        have h2 := congrArg List.getLast? h1
        rw [List.getLast?_map, hlast] at h2
        rw [← h2]
        simp [hdz]
      have hsum2 := sum_dropLast_add_getLast _ 0 hlastlen
      have hsum3 : ((cs2.map List.length).dropLast).sum = data.length := by omega
      have hdlne : (cs2.map List.length).dropLast ≠ [] := by
        intro hE
        rw [hE] at hsum3
        simp only [List.sum_nil] at hsum3
        omega
      have hmapd : ((leavesGo 0 cs2).dropLast).map
            (fun nd => (nd.min_byte_range, nd.max_byte_range))
          = rangesFrom 0 ((cs2.map List.length).dropLast) := by
        rw [List.map_dropLast, hranges, rangesFrom_dropLast]
      first
      | -- chain
        (show (((leavesGo 0 cs2).dropLast).map
            (fun nd => (nd.min_byte_range, nd.max_byte_range))).Chain' (fun a b => a.2 = b.1)
         rw [hmapd]
         exact rangesFrom_chain _ 0)
      | -- head
        (obtain ⟨n, rest, hcons⟩ := List.exists_cons_of_ne_nil hdlne
         refine ⟨(0, 0 + n), ?_, rfl⟩
         rw [hmapd, hcons]
         exact rangesFrom_head 0 n rest)
      | -- last
        (obtain ⟨r, hr1, hr2⟩ := rangesFrom_getLast _ hdlne 0
         refine ⟨r, ?_, ?_⟩
         · rw [hmapd]
           exact hr1
         · omega)
    }
  · -- trailing chunk kept
    rw [if_neg hdz, if_neg hdz] at htx
    refine ⟨_, leavesGo 0 cs2, root, hok, hroot, htx, rfl, hchlen, ?_, ?_, ?_, ?_⟩
    · intro nd hnd
      have hsplit := List.dropLast_append_getLast hne2
      have hgl : (leavesGo 0 cs2).getLast hne2 = lastChunk := by
        have := List.getLast?_eq_getLast (leavesGo 0 cs2) hne2
        rw [hlast] at this
        exact (Option.some.injEq _ _ ▸ this.symm : _)
      rw [← hsplit] at hnd
      rcases List.mem_append.mp hnd with hnd | hnd
      · exact hdlpos nd hnd
      · simp only [List.mem_singleton] at hnd
        subst hnd
        rw [hgl]
        have hmemr : (lastChunk.min_byte_range, lastChunk.max_byte_range)
            ∈ rangesFrom 0 (cs2.map List.length) := by
          rw [← hranges]
          exact List.mem_map_of_mem _ (List.mem_of_mem_getLast? hlast)
        obtain ⟨hle, _⟩ := rangesFrom_mem _ 0 _ hmemr
        simp only at hle
        omega
    · show ((leavesGo 0 cs2).map
          (fun nd => (nd.min_byte_range, nd.max_byte_range))).Chain' (fun a b => a.2 = b.1)
      rw [hranges]
      exact rangesFrom_chain _ 0
    · obtain ⟨c, rest, hcons⟩ := List.exists_cons_of_ne_nil hcs2ne
      refine ⟨(0, 0 + c.length), ?_, rfl⟩
      rw [hranges, hcons]
      simp only [List.map_cons]
      exact rangesFrom_head 0 c.length _
    · have hlne : cs2.map List.length ≠ [] := by
        intro hE
        exact hcs2ne (List.map_eq_nil_iff.mp hE)
      obtain ⟨r, hr1, hr2⟩ := rangesFrom_getLast _ hlne 0
      refine ⟨r, ?_, ?_⟩
      · rw [hranges]
        exact hr1
      · omega



theorem merklize_invariants_witness :
    ([0] : List Nat) ≠ [] ∧
    ∃ (tx : Transaction) (leaves : List Node) (root : Node),
      generateLeaves [0] = .ok leaves ∧
      generateDataRoot leaves = .ok root ∧
      merklize [0] = .ok tx ∧
      tx.data_root = root.id ∧
      tx.chunks.length = tx.proofs.length ∧
      (∀ nd ∈ tx.chunks, nd.min_byte_range < nd.max_byte_range) ∧
      (tx.chunks.map fun nd => (nd.min_byte_range, nd.max_byte_range)).Chain'
        (fun a b => a.2 = b.1) ∧
      (∃ r0, (tx.chunks.map fun nd => (nd.min_byte_range, nd.max_byte_range)).head?
          = some r0 ∧ r0.1 = 0) ∧
      (∃ rl, (tx.chunks.map fun nd => (nd.min_byte_range, nd.max_byte_range)).getLast?
          = some rl ∧ rl.2 = ([0] : List Nat).length) :=
  ⟨by decide, merklize_invariants [0] (by decide)⟩

/-- Leaf-stage characterization of validate_chunk on a well-formed proof
buffer: the result is an error exactly when BOTH leaf checks fail (the
recomputed id differs from the expected id AND the parsed data hash differs
from the node's); if either check passes, validation succeeds. -/
theorem validateChunk_leafStageEq (root_id : List Nat) (x : Node)
    (dh dh2 note2 : List Nat) (recs : List (List Nat)) (bps : List BranchProof)
    (fin : List Nat) (off : Nat)
    (hdh : x.data_hash = some dh) (hd2 : dh2.length = 32) (hn2 : note2.length = 32)
    (hrl : ∀ rb ∈ recs, rb.length = 96)
    (hparse : parseBranchProofs recs = some bps)
    (hfin : validateBranches x.max_byte_range root_id bps = some fin) :
    validateChunk root_id x ⟨off, recs.flatten ++ (dh2 ++ note2)⟩
      = if hashAllSha256 [dh, toNoteVec x.max_byte_range] ≠ fin ∧ dh ≠ dh2
        then .err .InvalidProof else .ok () := by
  have hfl : recs.flatten.length = 96 * recs.length := flatten96_length recs hrl
  have htail : (dh2 ++ note2).length = 64 := by simp [hd2, hn2]
  have hc1 : HASH_SIZE + NOTE_SIZE = 64 := rfl
  have hc2 : HASH_SIZE * 2 + NOTE_SIZE = 96 := rfl
  have hlen : (recs.flatten ++ (dh2 ++ note2)).length = 96 * recs.length + 64 := by
    simp only [List.length_append, hfl, htail]
  have hsub : (recs.flatten ++ (dh2 ++ note2)).length - 64 = recs.flatten.length := by
    omega
  show (match x.data_hash with
    | none => PResult.panic
    | some data_hash =>
      if (recs.flatten ++ (dh2 ++ note2)).length < HASH_SIZE + NOTE_SIZE then PResult.panic
      else
        match parseBranchProofs (chunksOf (HASH_SIZE * 2 + NOTE_SIZE)
            ((recs.flatten ++ (dh2 ++ note2)).take
              ((recs.flatten ++ (dh2 ++ note2)).length - (HASH_SIZE + NOTE_SIZE)))) with
        | none => PResult.panic
        | some branch_proofs =>
          match parseLeafProof ((recs.flatten ++ (dh2 ++ note2)).drop
              ((recs.flatten ++ (dh2 ++ note2)).length - (HASH_SIZE + NOTE_SIZE))) with
          | none => PResult.err Error.InvalidProof
          | some leaf_proof =>
            match validateBranches x.max_byte_range root_id branch_proofs with
            | none => PResult.err Error.InvalidProof
            | some rid =>
              if hashAllSha256 [data_hash, toNoteVec x.max_byte_range] ≠ rid ∧
                  data_hash ≠ leaf_proof.data_hash then PResult.err Error.InvalidProof
              else PResult.ok ())
    = if hashAllSha256 [dh, toNoteVec x.max_byte_range] ≠ fin ∧ dh ≠ dh2
      then .err .InvalidProof else .ok ()
  rw [hdh, hc1, hc2, hsub]
  rw [show (recs.flatten ++ (dh2 ++ note2)).take recs.flatten.length = recs.flatten from
    List.take_left recs.flatten (dh2 ++ note2)]
  rw [show (recs.flatten ++ (dh2 ++ note2)).drop recs.flatten.length = dh2 ++ note2 from
    List.drop_left recs.flatten (dh2 ++ note2)]
  rw [chunksOf96_flatten recs hrl, hparse, parseLeafProof_split dh2 note2 hd2 hn2]
  simp only []
  rw [hfin]
  simp only []
  rw [if_neg (show ¬((recs.flatten ++ (dh2 ++ note2)).length < 64) by rw [hlen]; omega)]

/-- C1: the leaf stage of validate_chunk on a well-formed proof buffer (whole
96-byte branch records, a 32-byte parsed data hash and a 32-byte trailing
note) whose branch records replay to an expected id errors exactly when the
recomputed leaf id differs from the expected id AND the parsed data hash
differs from the node's data_hash; if either check passes, it returns Ok.
The source combines the two negated checks with a bitwise and, so a single
failing check does not produce an error. -/
theorem validateChunk_leaf_check_semantics (root_id : List Nat) (x : Node)
    (dh dh2 note2 : List Nat) (recs : List (List Nat)) (bps : List BranchProof)
    (fin : List Nat) (off : Nat)
    (hdh : x.data_hash = some dh) (hd2 : dh2.length = 32) (hn2 : note2.length = 32)
    (hrl : ∀ rb ∈ recs, rb.length = 96)
    (hparse : parseBranchProofs recs = some bps)
    (hfin : validateBranches x.max_byte_range root_id bps = some fin) :
    validateChunk root_id x ⟨off, recs.flatten ++ (dh2 ++ note2)⟩
      = if hashAllSha256 [dh, toNoteVec x.max_byte_range] ≠ fin ∧ dh ≠ dh2
        then .err .InvalidProof else .ok () :=
  validateChunk_leafStageEq root_id x dh dh2 note2 recs bps fin off
    hdh hd2 hn2 hrl hparse hfin

set_option maxRecDepth 40000 in
theorem validateChunk_leaf_check_semantics_witness :
    (mkLeaf [0] (0, 1)).data_hash = some (sha256 [0]) ∧
    (List.replicate 32 0 : List Nat).length = 32 ∧
    (toNoteVec 1).length = 32 ∧
    validateChunk (List.replicate 32 0) (mkLeaf [0] (0, 1))
      ⟨0, ([] : List (List Nat)).flatten ++ (List.replicate 32 0 ++ toNoteVec 1)⟩
      = .err .InvalidProof := by
  refine ⟨rfl, by simp, toNoteVec_length 1, ?_⟩
  have h := validateChunk_leaf_check_semantics (List.replicate 32 0) (mkLeaf [0] (0, 1))
    (sha256 [0]) (List.replicate 32 0) (toNoteVec 1) [] [] (List.replicate 32 0) 0
    rfl (by simp) (toNoteVec_length 1) (by simp) rfl rfl
  rw [if_pos ⟨by decide, by decide⟩] at h
  exact h

set_option maxRecDepth 40000 in
/-- The expected-id leaf check fails against an all-zero trusted root id
while the data-hash check passes, and validate_chunk nevertheless returns
Ok: the claim that either failing check produces an error is false. -/
theorem validateChunk_id_mismatch_accepted :
    hashAllSha256 [sha256 [0], toNoteVec 1] ≠ List.replicate 32 0 ∧
    (mkLeaf [0] (0, 1)).data_hash = some (sha256 [0]) ∧
    validateChunk (List.replicate 32 0) (mkLeaf [0] (0, 1))
      ⟨0, [] ++ sha256 [0] ++ toNoteVec 1⟩ = .ok () := by
  refine ⟨by decide, rfl, ?_⟩
  have h := validateChunk_leafStageEq (List.replicate 32 0) (mkLeaf [0] (0, 1))
    (sha256 [0]) (sha256 [0]) (toNoteVec 1) [] [] (List.replicate 32 0) 0
    rfl (sha256_length [0]) (toNoteVec_length 1) (by simp) rfl rfl
  rw [if_neg (fun hc => hc.2 rfl)] at h
  exact h

/-- C2: a single-bit flip anywhere in the final 32 bytes (the trailing note
region of the leaf record) of any honest proof produced by the pipeline
leaves validate_chunk returning Ok: such tampering is not detected. -/
theorem tamper_note_region_validates (data : List Nat) (hlen : data.length < 2 ^ 32)
    (leaves : List Node) (root : Node) (proofs : List Proof)
    (hl : generateLeaves data = .ok leaves)
    (hr : generateDataRoot leaves = .ok root)
    (hp : resolveProofs root none = .ok proofs)
    (i : Nat) (x : Node) (p : Proof) (hx : leaves[i]? = some x)
    (hpp : proofs[i]? = some p) (j b : Nat) (hj : p.proof.length - 32 ≤ j) :
    validateChunk root.id x ⟨p.offset, flipBitAt j b p.proof⟩ = .ok () := by
  obtain ⟨_, hmain⟩ := roundtrip_path_spec data hlen leaves root proofs hl hr hp
  obtain ⟨dh, recs, bps, hdh, hdhl, hpe, hrl, hparse, hloop⟩ := hmain i x p hx hpp
  subst hpe
  have hfl : recs.flatten.length = 96 * recs.length := flatten96_length recs hrl
  have hj2 : (recs.flatten ++ (dh ++ toNoteVec x.max_byte_range)).length - 32 ≤ j := hj
  have hlen3 : (recs.flatten ++ (dh ++ toNoteVec x.max_byte_range)).length
      = 96 * recs.length + 64 := by
    simp only [List.length_append, toNoteVec_length]
    omega
  show validateChunk root.id x
    ⟨x.max_byte_range - 1,
      flipBitAt j b (recs.flatten ++ (dh ++ toNoteVec x.max_byte_range))⟩ = .ok ()
  rw [flipBitAt_append_right recs.flatten _ j b (by omega)]
  rw [flipBitAt_append_right dh _ _ b (by rw [hdhl]; omega)]
  exact validateChunk_ok_of_path root.id x dh recs bps
    (flipBitAt (j - recs.flatten.length - dh.length) b (toNoteVec x.max_byte_range))
    (x.max_byte_range - 1) hdh hdhl
    (by rw [flipBitAt_length, toNoteVec_length]) hrl hparse hloop

theorem tamper_note_region_validates_witness :
    ([0] : List Nat).length < 2 ^ 32 ∧
    generateLeaves [0] = .ok [mkLeaf [0] (0, 1)] ∧
    generateDataRoot [mkLeaf [0] (0, 1)] = .ok (mkLeaf [0] (0, 1)) ∧
    resolveProofs (mkLeaf [0] (0, 1)) none
      = .ok [⟨0, [] ++ sha256 [0] ++ toNoteVec 1⟩] ∧
    ([] ++ sha256 [0] ++ toNoteVec 1 : List Nat).length - 32 ≤ 40 ∧
    validateChunk (mkLeaf [0] (0, 1)).id (mkLeaf [0] (0, 1))
      ⟨0, flipBitAt 40 0 ([] ++ sha256 [0] ++ toNoteVec 1)⟩ = .ok () := by
  have h1 : generateLeaves [0] = .ok [mkLeaf [0] (0, 1)] := rfl
  have h2 : generateDataRoot [mkLeaf [0] (0, 1)] = .ok (mkLeaf [0] (0, 1)) := rfl
  have h3 : resolveProofs (mkLeaf [0] (0, 1)) none
      = .ok [⟨0, [] ++ sha256 [0] ++ toNoteVec 1⟩] := by
    rw [resolveProofs_none]
    exact resolveProofs_leaf (hashAllSha256 [sha256 [0], toNoteVec 1]) (sha256 [0]) 0 1 0 []
  have hj : ([] ++ sha256 [0] ++ toNoteVec 1 : List Nat).length - 32 ≤ 40 := by
    simp [sha256_length, toNoteVec_length]
  refine ⟨by decide, h1, h2, h3, hj, ?_⟩
  exact tamper_note_region_validates [0] (by decide) [mkLeaf [0] (0, 1)] (mkLeaf [0] (0, 1))
    [⟨0, [] ++ sha256 [0] ++ toNoteVec 1⟩] h1 h2 h3 0 (mkLeaf [0] (0, 1))
    ⟨0, [] ++ sha256 [0] ++ toNoteVec 1⟩ rfl rfl 40 0 hj

set_option maxRecDepth 40000 in
/-- An honest single-leaf proof with bit 0 of byte 40 flipped (inside the
trailing leaf record) still validates against the true root id, though the
flipped buffer differs from the honest one: flips are not always detected. -/
theorem tamper_note_flip_cex :
    resolveProofs (mkLeaf [0] (0, 1)) none = .ok [⟨0, [] ++ sha256 [0] ++ toNoteVec 1⟩] ∧
    flipBitAt 40 0 ([] ++ sha256 [0] ++ toNoteVec 1) ≠ [] ++ sha256 [0] ++ toNoteVec 1 ∧
    validateChunk (mkLeaf [0] (0, 1)).id (mkLeaf [0] (0, 1))
      ⟨0, flipBitAt 40 0 ([] ++ sha256 [0] ++ toNoteVec 1)⟩ = .ok () := by
  have hflip : flipBitAt 40 0 ([] ++ sha256 [0] ++ toNoteVec 1)
      = sha256 [0] ++ flipBitAt 8 0 (toNoteVec 1) := by
    rw [List.nil_append]
    rw [flipBitAt_append_right (sha256 [0]) (toNoteVec 1) 40 0 (by rw [sha256_length]; omega)]
    rw [sha256_length]
  refine ⟨?_, ?_, ?_⟩
  · rw [resolveProofs_none]
    exact resolveProofs_leaf _ _ 0 1 0 []
  · rw [hflip, List.nil_append]
    intro hE
    have h2 := List.append_cancel_left hE
    exact absurd h2 (by decide)
  · rw [hflip]
    exact validateChunk_ok_of_path (mkLeaf [0] (0, 1)).id (mkLeaf [0] (0, 1))
      (sha256 [0]) [] [] (flipBitAt 8 0 (toNoteVec 1)) 0 rfl (sha256_length [0])
      (by rw [flipBitAt_length, toNoteVec_length]) (by simp) rfl ⟨_, rfl⟩

theorem parseBranchProofs_bad_mod_fuel : ∀ (fuel : Nat) (l : List Nat), l.length ≤ fuel →
    l.length % 96 ≠ 0 → parseBranchProofs (chunksOf 96 l) = none := by
  intro fuel
  induction fuel with
  | zero =>
    intro l hl hb
    have : l = [] := List.length_eq_zero.mp (Nat.le_zero.mp hl)
    subst this
    simp at hb
  | succ f ih =>
    intro l hl hb
    have hnil : l ≠ [] := by
      intro h
      subst h
      simp at hb
    rw [chunksOf_cons 96 l (by decide) hnil]
    by_cases hle : l.length ≤ 96
    · have h96 : l.length ≠ 96 := by
        intro h
        rw [h] at hb
        simp at hb
      rw [List.drop_eq_nil_of_le hle, chunksOf_nil, List.take_of_length_le hle]
      simp [parseBranchProofs, parseBranchProof, h96]
    · push_neg at hle
      have htake : (l.take 96).length = 96 := by
        rw [List.length_take]
        omega
      have hpb : parseBranchProof (l.take 96)
          = some ⟨(l.take 96).take 32, ((l.take 96).drop 32).take 32,
              ((l.take 96).drop 64).take 24, (l.take 96).drop 88⟩ := by
        rw [parseBranchProof, if_pos htake]
      have hrest : parseBranchProofs (chunksOf 96 (l.drop 96)) = none := by
        apply ih
        · simp only [List.length_drop]
          omega
        · simp only [List.length_drop]
          omega
      simp [parseBranchProofs, hpb, hrest]

theorem parseBranchProofs_bad_mod (l : List Nat) (hb : l.length % 96 ≠ 0) :
    parseBranchProofs (chunksOf 96 l) = none :=
  parseBranchProofs_bad_mod_fuel l.length l le_rfl hb

/-- C7: a proof buffer shorter than the 64-byte leaf record, or whose
remaining branch region is not a multiple of 96 bytes, makes validate_chunk
panic (usize-underflow in split_at, or unwrap of a failed branch-record
deserialization) rather than return an error to the caller. -/
theorem validateChunk_malformed_proof_panics (root_id : List Nat) (x : Node) (dh : List Nat)
    (hdh : x.data_hash = some dh) (pf : Proof)
    (h : pf.proof.length < 64 ∨ (64 ≤ pf.proof.length ∧ (pf.proof.length - 64) % 96 ≠ 0)) :
    validateChunk root_id x pf = .panic := by
  rcases pf with ⟨off, bytes⟩
  simp only [] at h
  have hc1 : HASH_SIZE + NOTE_SIZE = 64 := rfl
  have hc2 : HASH_SIZE * 2 + NOTE_SIZE = 96 := rfl
  show (match x.data_hash with
    | none => PResult.panic
    | some data_hash =>
      if bytes.length < HASH_SIZE + NOTE_SIZE then PResult.panic
      else
        match parseBranchProofs (chunksOf (HASH_SIZE * 2 + NOTE_SIZE)
            (bytes.take (bytes.length - (HASH_SIZE + NOTE_SIZE)))) with
        | none => PResult.panic
        | some branch_proofs =>
          match parseLeafProof (bytes.drop (bytes.length - (HASH_SIZE + NOTE_SIZE))) with
          | none => PResult.err Error.InvalidProof
          | some leaf_proof =>
            match validateBranches x.max_byte_range root_id branch_proofs with
            | none => PResult.err Error.InvalidProof
            | some rid =>
              if hashAllSha256 [data_hash, toNoteVec x.max_byte_range] ≠ rid ∧
                  data_hash ≠ leaf_proof.data_hash then PResult.err Error.InvalidProof
              else PResult.ok ()) = PResult.panic
  rw [hdh, hc1, hc2]
  simp only []
  rcases h with h | ⟨h1, h2⟩
  · rw [if_pos h]
  · rw [if_neg (by omega)]
    have hbm : (bytes.take (bytes.length - 64)).length % 96 ≠ 0 := by
      rw [List.length_take]
      omega
    rw [parseBranchProofs_bad_mod _ hbm]

theorem validateChunk_malformed_proof_panics_witness :
    (mkLeaf [0] (0, 1)).data_hash = some (sha256 [0]) ∧
    (([] : List Nat).length < 64 ∨
      (64 ≤ ([] : List Nat).length ∧ (([] : List Nat).length - 64) % 96 ≠ 0)) ∧
    validateChunk [] (mkLeaf [0] (0, 1)) ⟨0, []⟩ = .panic ∧
    ((List.replicate 65 0 : List Nat).length < 64 ∨
      (64 ≤ (List.replicate 65 0 : List Nat).length ∧
        ((List.replicate 65 0 : List Nat).length - 64) % 96 ≠ 0)) ∧
    validateChunk [] (mkLeaf [0] (0, 1)) ⟨0, List.replicate 65 0⟩ = .panic := by
  refine ⟨rfl, Or.inl (by decide), ?_, Or.inr (by decide), ?_⟩
  · exact validateChunk_malformed_proof_panics [] (mkLeaf [0] (0, 1)) (sha256 [0]) rfl
      ⟨0, []⟩ (Or.inl (by decide))
  · exact validateChunk_malformed_proof_panics [] (mkLeaf [0] (0, 1)) (sha256 [0]) rfl
      ⟨0, List.replicate 65 0⟩ (Or.inr (by decide))

/-- C8: a Node that is neither a well-formed leaf (data_hash, no children)
nor a well-formed branch (no data_hash, both children) drives resolve_proofs
into the unreachable arm, a panic, not an error; validate_chunk likewise
panics on any node without a data_hash. -/
theorem malformed_node_panics (n : Node) (pf : Option Proof) (root_id : List Nat) (p : Proof)
    (hnotleaf : ¬(n.data_hash ≠ none ∧ n.left_child = none ∧ n.right_child = none))
    (hnotbranch : ¬(n.data_hash = none ∧ n.left_child ≠ none ∧ n.right_child ≠ none)) :
    resolveProofs n pf = .panic ∧
    (n.data_hash = none → validateChunk root_id n p = .panic) := by
  rcases n with ⟨id, dh, mn, mx, lc, rc⟩
  cases dh <;> cases lc <;> cases rc <;> simp_all [resolveProofs, validateChunk]

theorem malformed_node_panics_witness :
    ¬((⟨[], none, 0, 0, none, none⟩ : Node).data_hash ≠ none ∧
      (⟨[], none, 0, 0, none, none⟩ : Node).left_child = none ∧
      (⟨[], none, 0, 0, none, none⟩ : Node).right_child = none) ∧
    ¬((⟨[], none, 0, 0, none, none⟩ : Node).data_hash = none ∧
      (⟨[], none, 0, 0, none, none⟩ : Node).left_child ≠ none ∧
      (⟨[], none, 0, 0, none, none⟩ : Node).right_child ≠ none) ∧
    resolveProofs ⟨[], none, 0, 0, none, none⟩ none = .panic ∧
    ((⟨[], none, 0, 0, none, none⟩ : Node).data_hash = none →
      validateChunk [] ⟨[], none, 0, 0, none, none⟩ ⟨0, []⟩ = .panic) := by
  refine ⟨by simp, by simp, ?_⟩
  exact malformed_node_panics ⟨[], none, 0, 0, none, none⟩ none [] ⟨0, []⟩
    (by simp) (by simp)



/-- C9: to_deep_hash_item maps format-1 transactions to the ordered list
(owner, target, data, quantity, reward, last_tx, tag-list) and format-2
transactions to (format string, owner, target, quantity, reward, last_tx,
tag-list, data_size string, data_root); the tag-list maps to Blob(empty)
when there are no tags and otherwise to a list of per-tag
list([Blob(name), Blob(value)]). -/
theorem toDeepHashItem_orderings (tx : Transaction) :
    (tx.format = 1 →
      tx.toDeepHashItem = .ok (.list
        ([DeepHashItem.Blob tx.owner, .Blob tx.target, .Blob tx.data,
          .Blob (decBytes tx.quantity), .Blob (decBytes tx.reward), .Blob tx.last_tx]
          ++ [tagsToDeepHashItem tx.tags]))) ∧
    (tx.format = 2 →
      tx.toDeepHashItem = .ok (.list
        ([DeepHashItem.Blob (decBytes tx.format), .Blob tx.owner, .Blob tx.target,
          .Blob (decBytes tx.quantity), .Blob (decBytes tx.reward), .Blob tx.last_tx]
          ++ [tagsToDeepHashItem tx.tags]
          ++ [DeepHashItem.Blob (decBytes tx.data_size)]
          ++ [DeepHashItem.Blob tx.data_root]))) ∧
    (tx.tags = [] → tagsToDeepHashItem tx.tags = .Blob []) ∧
    (tx.tags ≠ [] → tagsToDeepHashItem tx.tags
        = .list (tx.tags.map fun t => .list [.Blob t.name, .Blob t.value])) := by
  refine ⟨?_, ?_, ?_, ?_⟩
  · intro hf
    rw [Transaction.toDeepHashItem, hf]
    rfl
  · intro hf
    rw [Transaction.toDeepHashItem, hf]
    rfl
  · intro ht
    rw [tagsToDeepHashItem, ht]
    simp
  · intro ht
    rw [tagsToDeepHashItem, if_pos (by simpa [List.length_pos] using ht)]
    rfl

theorem toDeepHashItem_orderings_witness :
    ({ Transaction.default with
        format := 2
        tags := [⟨[1], [2]⟩] } : Transaction).format = 2 ∧
    ({ Transaction.default with
        format := 2
        tags := [⟨[1], [2]⟩] } : Transaction).tags ≠ [] ∧
    Transaction.toDeepHashItem { Transaction.default with
        format := 2
        tags := [⟨[1], [2]⟩] }
      = .ok (.list
        ([DeepHashItem.Blob (decBytes 2), .Blob [], .Blob [], .Blob (decBytes 0),
          .Blob (decBytes 0), .Blob []]
          ++ [DeepHashItem.list [.list [.Blob [1], .Blob [2]]]]
          ++ [DeepHashItem.Blob (decBytes 0)] ++ [DeepHashItem.Blob []])) ∧
    Transaction.toDeepHashItem { Transaction.default with format := 1 }
      = .ok (.list
        ([DeepHashItem.Blob [], .Blob [], .Blob [], .Blob (decBytes 0), .Blob (decBytes 0),
          .Blob []] ++ [DeepHashItem.Blob []])) := by
  have h2 := toDeepHashItem_orderings { Transaction.default with
    format := 2
    tags := [⟨[1], [2]⟩] }
  have h1 := toDeepHashItem_orderings { Transaction.default with format := 1 }
  refine ⟨rfl, by simp, ?_, ?_⟩
  · have hx := h2.2.1 rfl
    rw [h2.2.2.2 (by simp)] at hx
    exact hx
  · have hx := h1.1 rfl
    rw [h1.2.2.1 rfl] at hx
    exact hx

end Dapp
